import Mathlib

/-!
# Verification of `num-traits` numeric operations

A shallow embedding of the arithmetic kernels of the `num-traits` crate.
Machine integers of width `W` are modelled as natural numbers below `2 ^ W`
(unsigned) or as integers in `[-2^(W-1), 2^(W-1))` (signed); every
`wrapping_*` operation of the source becomes arithmetic modulo `2 ^ W`, and
fallible operations return `Option`.
-/

namespace NumTraits

/-! ## `src/ops/widening.rs` -/

/-- Macro `widening_impl!` (widening.rs lines 3-12): `widening_mul` for a limb of
width `W`, computed through the double-width limb.  `wide` is
`(a as double).wrapping_mul(b as double)`, i.e. the product modulo `2 ^ (2W)`;
the result is `(wide as limb, (wide >> W) as limb)`, where the narrowing cast
keeps the value modulo `2 ^ W`. -/
def wideningMul (W a b : ℕ) : ℕ × ℕ :=
  let wide := (a * b) % 2 ^ (2 * W)
  (wide % 2 ^ W, (wide >>> W) % 2 ^ W)

/-- The `u128` `widening_mul` (widening.rs lines 100-125): the schoolbook
half-limb algorithm with explicit carry propagation.  Each `wrapping_mul` /
`wrapping_add` is taken modulo `2 ^ 128`; `wrapping_shr 64` and
`wrapping_shl 64` are `>>> 64` and `<<< 64` followed by reduction modulo
`2 ^ 128`; `& LOW_MASK` and `|` are the bitwise operations on naturals.
The source reassigns its mutable locals; each reassignment becomes a fresh
`let` binding here. -/
def u128WideningMul (lhs rhs : ℕ) : ℕ × ℕ :=
  let LOW_MASK : ℕ := 2 ^ 64 - 1
  let lhs_lo := lhs &&& LOW_MASK
  let lhs_hi := lhs >>> 64
  let rhs_lo := rhs &&& LOW_MASK
  let rhs_hi := rhs >>> 64
  let l4 := (lhs_lo * rhs_lo) % 2 ^ 128
  let rhs_lo2 := ((rhs_lo * lhs_hi) % 2 ^ 128 + (l4 >>> 64)) % 2 ^ 128
  let lhs_lo2 := ((lhs_lo * rhs_hi) % 2 ^ 128 + (rhs_lo2 &&& LOW_MASK)) % 2 ^ 128
  let lhs_hi2 := (lhs_hi * rhs_hi) % 2 ^ 128
  let rhs_hi2 := lhs_lo2 >>> 64
  let rhs_lo3 := rhs_lo2 >>> 64
  let lhs_hi3 := (lhs_hi2 + rhs_lo3) % 2 ^ 128
  let lhs_lo3 := (lhs_lo2 <<< 64) % 2 ^ 128
  let l4b := l4 &&& LOW_MASK
  let lhs_lo4 := lhs_lo3 ||| l4b
  let lhs_hi4 := (lhs_hi3 + rhs_hi2) % 2 ^ 128
  (lhs_lo4, lhs_hi4)

/-! ## `src/cast.rs`: integer-to-integer fallible conversions

The `ToPrimitive` macros are instantiated at the integer kinds of widths
8–64 (with `isize`/`usize` equal to one of them).  A kind is a signedness
plus a bit width; a value of the kind is an integer in its range.  The
`size_of` comparisons of the source compare byte sizes, which order exactly
as the bit widths do. -/

/-- A primitive integer kind: signedness and bit width. -/
structure Kind where
  signed : Bool
  width : ℕ

/-- Smallest value of a kind. -/
def Kind.minVal (k : Kind) : ℤ := if k.signed then -(2 ^ (k.width - 1)) else 0

/-- Largest value of a kind. -/
def Kind.maxVal (k : Kind) : ℤ := if k.signed then 2 ^ (k.width - 1) - 1 else 2 ^ k.width - 1

/-- Predicate: `v` is representable in kind `k`. -/
def Kind.InRange (k : Kind) (v : ℤ) : Prop := k.minVal ≤ v ∧ v ≤ k.maxVal

instance (k : Kind) (v : ℤ) : Decidable (k.InRange v) := by
  unfold Kind.InRange; infer_instance

/-- Macro `impl_to_primitive_int_to_int` (cast.rs lines 79-92): signed source of
width `ws` to signed destination of width `wd`.  `min`/`max` are
`$DstT::MIN/MAX as $SrcT`, exact when `ws > wd` (the only case where the
range test is reached). -/
def intToInt (ws wd : ℕ) (v : ℤ) : Option ℤ :=
  if ws ≤ wd ∨ (-(2 ^ (wd - 1)) ≤ v ∧ v ≤ 2 ^ (wd - 1) - 1) then some v else none

/-- Macro `impl_to_primitive_int_to_uint` (cast.rs lines 94-106): signed source of
width `ws` to unsigned destination of width `wd`.  The comparison
`*self as u64 <= max` goes through `u64`, exact for the nonnegative values
that reach it at the instantiated widths. -/
def intToUint (ws wd : ℕ) (v : ℤ) : Option ℤ :=
  if 0 ≤ v ∧ (ws < wd ∨ v ≤ 2 ^ wd - 1) then some v else none

/-- Macro `impl_to_primitive_uint_to_int` (cast.rs lines 141-153): unsigned source
of width `ws` to signed destination of width `wd`, comparing through `u64`. -/
def uintToInt (ws wd : ℕ) (v : ℤ) : Option ℤ :=
  if ws < wd ∨ v ≤ 2 ^ (wd - 1) - 1 then some v else none

/-- Macro `impl_to_primitive_uint_to_uint` (cast.rs lines 155-167): unsigned source
of width `ws` to unsigned destination of width `wd`. -/
def uintToUint (ws wd : ℕ) (v : ℤ) : Option ℤ :=
  if ws ≤ wd ∨ v ≤ 2 ^ wd - 1 then some v else none

/-- The integer-to-integer conversion family: dispatch on the signedness of
source and destination, as the `impl_to_primitive_int`/`uint` macros do. -/
def convertInt (s d : Kind) (v : ℤ) : Option ℤ :=
  match s.signed, d.signed with
  | true, true => intToInt s.width d.width v
  | true, false => intToUint s.width d.width v
  | false, true => uintToInt s.width d.width v
  | false, false => uintToUint s.width d.width v

/-! ## `src/cast.rs`: float-to-integer fallible conversions

An IEEE float value is NaN, an infinity, or a finite value; every finite
float is a rational number, so finite values carry a rational.  The
conversions below only compare the input against constants that are exactly
representable in the float kind and truncate toward zero, and both
comparison and truncation are exact in IEEE 754, so on representable inputs
the rational model agrees with the float computation; the universally
quantified theorems range over all rationals, a superset of the
representable finite values. -/

/-- A float value: NaN, an infinity, or a finite (rational) value. -/
inductive Fl where
  | nan : Fl
  | posInf : Fl
  | negInf : Fl
  | finite (q : ℚ) : Fl

/-- IEEE `<`: any comparison with NaN is false. -/
def Fl.lt : Fl → Fl → Bool
  | .nan, _ => false
  | _, .nan => false
  | .negInf, .negInf => false
  | .negInf, _ => true
  | _, .negInf => false
  | .posInf, _ => false
  | .finite _, .posInf => true
  | .finite a, .finite b => decide (a < b)

/-- IEEE `<=`: any comparison with NaN is false. -/
def Fl.le : Fl → Fl → Bool
  | .nan, _ => false
  | _, .nan => false
  | .negInf, _ => true
  | _, .negInf => false
  | .posInf, .posInf => true
  | .finite _, .posInf => true
  | .posInf, .finite _ => false
  | .finite a, .finite b => decide (a ≤ b)

/-- Truncation toward zero of a rational. -/
def ratTrunc (q : ℚ) : ℤ := if q < 0 then ⌈q⌉ else ⌊q⌋

/-- Modelled from the spec: the native `as` cast from a float to an integer
kind with range `[lo, hi]` (the "unchecked reinterpreting cast": truncation
toward zero, saturating at the range ends, NaN to zero).  Only reached here
on in-range finite values. -/
def Fl.castTrunc (lo hi : ℤ) : Fl → ℤ
  | .nan => 0
  | .posInf => hi
  | .negInf => lo
  | .finite q => max lo (min hi (ratTrunc q))

/-- Macro `impl_to_primitive_float_to_signed_int` (cast.rs lines 219-246), branch
`size_of::<$f>() > size_of::<$i>()` (e.g. `f64 -> i32`): the constants
`MIN_M1 = $i::MIN as $f - 1.0` and `MAX_P1 = $i::MAX as $f + 1.0` are exact,
`-(2^(w-1)) - 1` and `2^(w-1)`; accept exclusively between them. -/
def floatToSignedWide (w : ℕ) (x : Fl) : Option ℤ :=
  if (Fl.lt (Fl.finite (-(2 ^ (w - 1) : ℚ) - 1)) x
      && Fl.lt x (Fl.finite (2 ^ (w - 1) : ℚ))) = true then
    some (x.castTrunc (-(2 ^ (w - 1))) (2 ^ (w - 1) - 1))
  else none

/-- Macro `impl_to_primitive_float_to_signed_int` (cast.rs lines 219-246), branch
where the float is not wider (e.g. `f64 -> i64`): `MIN = $i::MIN as $f` is
exact, `-(2^(w-1))`, used inclusively; `MAX_P1 = $i::MAX as $f` rounds up to
exactly `2^(w-1)`, used exclusively. -/
def floatToSignedNarrow (w : ℕ) (x : Fl) : Option ℤ :=
  if (Fl.le (Fl.finite (-(2 ^ (w - 1) : ℚ))) x
      && Fl.lt x (Fl.finite (2 ^ (w - 1) : ℚ))) = true then
    some (x.castTrunc (-(2 ^ (w - 1))) (2 ^ (w - 1) - 1))
  else none

/-- Macro `impl_to_primitive_float_to_unsigned_int` (cast.rs lines 248-271): both
branches test `*self > -1.0 && *self < MAX_P1` where `MAX_P1` is exactly
`2^w` (as `$u::MAX as $f + 1.0` when the float is wider, as the rounding of
`$u::MAX as $f` otherwise). -/
def floatToUnsigned (w : ℕ) (x : Fl) : Option ℤ :=
  if (Fl.lt (Fl.finite (-1 : ℚ)) x && Fl.lt x (Fl.finite (2 ^ w : ℚ))) = true then
    some (x.castTrunc 0 (2 ^ w - 1))
  else none

/-! ## `src/cast.rs`: integer-to-float conversions (`to_f32` / `to_f64`)

`impl_to_primitive_int` and `impl_to_primitive_uint` (cast.rs lines 127-130
and 188-191) define `to_f32`/`to_f64` as `Some(*self as f32/f64)`
unconditionally.  The `as` cast itself is the native int-to-float
conversion ("value approximation on int↔float" per the spec): the nearest
representable float, ties to even.  For `f64` the significand holds 53
bits, so an integer is exact iff it is `m * 2^k` with `|m| < 2^53`. -/

/-- Binary length of a natural number, by fuel (128 suffices for all
integer kinds here): `bitLen n = k` iff `2^(k-1) <= n < 2^k` for `n > 0`. -/
def bitLenAux : ℕ → ℕ → ℕ
  | 0, _ => 0
  | fuel + 1, n => if n = 0 then 0 else bitLenAux fuel (n / 2) + 1

/-- Binary length with enough fuel for every value appearing here. -/
def bitLen (n : ℕ) : ℕ := bitLenAux 128 n

/-- Modelled from the spec: round a natural number to `sig` significant
binary digits, round-to-nearest, ties to even — the rounding the native
`as` cast to a float with a `sig`-bit significand performs on integer
magnitudes (`sig = 24` for `f32`, `sig = 53` for `f64`; no overflow occurs
for 64-bit integer sources in either format). -/
def roundSig (sig n : ℕ) : ℕ :=
  if n ≤ 2 ^ sig then n
  else
    let s := bitLen n - sig
    let q := n / 2 ^ s
    let r := n % 2 ^ s
    let half := 2 ^ (s - 1)
    if half < r ∨ (r = half ∧ q % 2 = 1) then (q + 1) * 2 ^ s else q * 2 ^ s

/-- Round-to-nearest float value of an integer, by magnitude. -/
def roundIntSig (sig : ℕ) (n : ℤ) : ℤ :=
  if n < 0 then -(roundSig sig n.natAbs : ℤ) else (roundSig sig n.natAbs : ℤ)

/-- Methods `to_f32` / `to_f64` for the integer sources (cast.rs lines
127-130 and 188-191): `Some(*self as f32/f64)`, unconditionally, for a
float destination with a `sig`-bit significand. -/
def intToFloat (sig : ℕ) (n : ℤ) : Option Fl := some (Fl.finite (roundIntSig sig n : ℤ))

/-- Method `to_f64` for `i64` (cast.rs lines 127-130): `Some(*self as f64)`,
unconditionally; `f64` carries a 53-bit significand. -/
def i64ToF64 (n : ℤ) : Option Fl := intToFloat 53 n

/-- Predicate: `n` is exactly representable in an IEEE binary float with a
`sig`-bit significand: an integer `m * 2^k` (every `|n| <= 2^sig`
qualifies, and no overflow occurs in the 64-bit range). -/
def ReprSig (sig : ℕ) (n : ℤ) : Prop := ∃ (m : ℤ) (k : ℕ), n = m * 2 ^ k ∧ |m| ≤ 2 ^ sig

/-! ## `src/ops/checked.rs`: checked shifts -/

/-- Modelled from the spec: the standard library `checked_shl` on an
unsigned kind of width `w` with a `u32` shift amount (the repo's
`checked_shift_impl` forwards to it): overflow — `None` — exactly when the
amount reaches the bit width, else the shifted value with high bits
discarded. -/
def stdCheckedShl (w x s : ℕ) : Option ℕ :=
  if s < w then some (x * 2 ^ s % 2 ^ w) else none

/-- Modelled from the spec: the standard library `checked_shr` on an
unsigned kind of width `w` with a `u32` shift amount. -/
def stdCheckedShr (w x s : ℕ) : Option ℕ :=
  if s < w then some (x / 2 ^ s) else none

/-- Macro `checked_shift_impl` (checked.rs lines 100-116) for `CheckedShl`: the
right-hand side is converted by `*rhs as u32`, the truncating
two's-complement cast — the value of the rhs bit pattern modulo `2^32`
(`r : ℤ` covers both signed and unsigned rhs kinds). -/
def checkedShl (w x : ℕ) (r : ℤ) : Option ℕ :=
  stdCheckedShl w x (r % 2 ^ 32).toNat

/-- Macro `checked_shift_impl` (checked.rs lines 100-116) for `CheckedShr`. -/
def checkedShr (w x : ℕ) (r : ℤ) : Option ℕ :=
  stdCheckedShr w x (r % 2 ^ 32).toNat

/-- Two's-complement reinterpretation of a width-`w` bit pattern
(a value in `[0, 2^w)`) as a signed value. -/
def toSigned (w : ℕ) (u : ℤ) : ℤ := if u < 2 ^ (w - 1) then u else u - 2 ^ w

/-- Modelled from the spec: the standard library `checked_shl` on a signed
kind of width `w` with a `u32` amount: `None` exactly when the amount
reaches the bit width, else the bit pattern shifted left with high bits
(including into the sign bit) wrapping — the pattern times `2^s` modulo
`2^w`, reinterpreted two's-complement. -/
def stdCheckedShlSigned (w : ℕ) (x : ℤ) (s : ℕ) : Option ℤ :=
  if s < w then some (toSigned w (x * 2 ^ s % 2 ^ w)) else none

/-- Modelled from the spec: the standard library `checked_shr` on a signed
kind of width `w` with a `u32` amount: the shift is arithmetic
(sign-extending), which on values is flooring division by `2^s`. -/
def stdCheckedShrSigned (w : ℕ) (x : ℤ) (s : ℕ) : Option ℤ :=
  if s < w then some (Int.fdiv x (2 ^ s)) else none

/-- Macro `checked_shift_impl` (checked.rs lines 100-116) for `CheckedShl`
at the signed kinds `i8..isize`, with the same truncating `*rhs as u32`
conversion of the amount. -/
def checkedShlSigned (w : ℕ) (x : ℤ) (r : ℤ) : Option ℤ :=
  stdCheckedShlSigned w x (r % 2 ^ 32).toNat

/-- Macro `checked_shift_impl` (checked.rs lines 100-116) for `CheckedShr`
at the signed kinds `i8..isize`. -/
def checkedShrSigned (w : ℕ) (x : ℤ) (r : ℤ) : Option ℤ :=
  stdCheckedShrSigned w x (r % 2 ^ 32).toNat

/-! ## `src/ops/euclid.rs`

`euclid_forward_impl` and `checked_euclid_forward_impl` forward each
integer kind to the standard library's `div_euclid` / `rem_euclid` /
`checked_div_euclid` / `checked_rem_euclid`, which are not part of this
repository; they are modelled from the spec's description.  `Int.tdiv` /
`Int.tmod` are truncating division and remainder, the `/` and `%` of the
source language. -/

/-- Modelled from the spec: the standard library's signed `div_euclid`
(forwarded to by euclid.rs lines 72-89): ordinary truncating division,
and if the remainder is negative, adjust the quotient by −1 for a positive
divisor and by +1 for a negative one. -/
def divEuclidInt (a v : ℤ) : ℤ :=
  if a.tmod v < 0 then if 0 < v then a.tdiv v - 1 else a.tdiv v + 1 else a.tdiv v

/-- Modelled from the spec: the standard library's signed `rem_euclid`:
the truncating remainder, plus `|v|` if negative. -/
def remEuclidInt (a v : ℤ) : ℤ :=
  if a.tmod v < 0 then a.tmod v + |v| else a.tmod v

/-- Modelled from the spec: the standard library's signed
`checked_div_euclid` for a kind of width `w` (forwarded to by euclid.rs
lines 223-240): `None` on a zero divisor or on `MIN / -1`, the one
overflowing case. -/
def checkedDivEuclidInt (w : ℕ) (a v : ℤ) : Option ℤ :=
  if v = 0 ∨ (a = -2 ^ (w - 1) ∧ v = -1) then none else some (divEuclidInt a v)

/-- Modelled from the spec: the standard library's signed
`checked_rem_euclid` for a kind of width `w`. -/
def checkedRemEuclidInt (w : ℕ) (a v : ℤ) : Option ℤ :=
  if v = 0 ∨ (a = -2 ^ (w - 1) ∧ v = -1) then none else some (remEuclidInt a v)

/-- Modelled from the spec: the standard library's unsigned
`checked_div_euclid`: euclidean division degenerates to ordinary division;
`None` exactly on a zero divisor. -/
def checkedDivEuclidUint (a v : ℕ) : Option ℕ :=
  if v = 0 then none else some (a / v)

/-- Modelled from the spec: the standard library's unsigned
`checked_rem_euclid`. -/
def checkedRemEuclidUint (a v : ℕ) : Option ℕ :=
  if v = 0 then none else some (a % v)

/-! ## `src/pow.rs`: `pow` and `checked_pow`

Both functions are generic over the base type `T : Clone + One +
(Checked)Mul` and take an unsigned primitive exponent; the embedding is
generic over the multiplication and has the exponent a natural number.
The two `while` loops become recursion on an explicit fuel argument;
`fuel = exp` always suffices because the exponent at least halves each
iteration, and the loops are only entered with a nonzero exponent. -/

/-- First loop of `pow` (pow.rs lines 187-190): square the base and halve
the exponent while the exponent is even (the source loop does not test
`exp != 0`; it is never reached with a zero exponent). -/
def powLoopA (mul : α → α → α) : ℕ → α → ℕ → α × ℕ
  | 0, b, e => (b, e)
  | fuel + 1, b, e =>
    if e % 2 = 0 ∧ e ≠ 0 then powLoopA mul fuel (mul b b) (e / 2) else (b, e)

/-- Second loop of `pow` (pow.rs lines 196-202): halve the exponent,
square the base, and accumulate when the shifted exponent is odd. -/
def powLoopB (mul : α → α → α) : ℕ → α → α → ℕ → α
  | 0, acc, _, _ => acc
  | fuel + 1, acc, b, e =>
    if 1 < e then
      let e2 := e / 2
      let b2 := mul b b
      let acc2 := if e2 % 2 = 1 then mul acc b2 else acc
      powLoopB mul fuel acc2 b2 e2
    else acc

/-- Function `pow` (pow.rs lines 178-204): exponent zero returns one; otherwise run
the first loop, return the base if the exponent became one, else run the
accumulation loop seeded with the squared-up base. -/
def powG (one : α) (mul : α → α → α) (b : α) (e : ℕ) : α :=
  if e = 0 then one
  else
    let p := powLoopA mul e b e
    if p.2 = 1 then p.1 else powLoopB mul p.2 p.1 p.1 p.2

/-- First loop of `checked_pow` (pow.rs lines 232-235): as in `pow` with
`checked_mul` and the `?` early return. -/
def checkedPowLoopA (mul : α → α → Option α) : ℕ → α → ℕ → Option (α × ℕ)
  | 0, b, e => some (b, e)
  | fuel + 1, b, e =>
    if e % 2 = 0 ∧ e ≠ 0 then
      match mul b b with
      | none => none
      | some b2 => checkedPowLoopA mul fuel b2 (e / 2)
    else some (b, e)

/-- Second loop of `checked_pow` (pow.rs lines 241-247). -/
def checkedPowLoopB (mul : α → α → Option α) : ℕ → α → α → ℕ → Option α
  | 0, acc, _, _ => some acc
  | fuel + 1, acc, b, e =>
    if 1 < e then
      let e2 := e / 2
      match mul b b with
      | none => none
      | some b2 =>
        match if e2 % 2 = 1 then mul acc b2 else some acc with
        | none => none
        | some acc2 => checkedPowLoopB mul fuel acc2 b2 e2
    else some acc

/-- Function `checked_pow` (pow.rs lines 223-249). -/
def checkedPowG (one : α) (mul : α → α → Option α) (b : α) (e : ℕ) : Option α :=
  if e = 0 then some one
  else
    match checkedPowLoopA mul e b e with
    | none => none
    | some (b1, e1) => if e1 = 1 then some b1 else checkedPowLoopB mul e1 b1 b1 e1

/-- Wrapping (release-mode) multiplication of an unsigned kind of width
`w`; under the `checked_pow = Some` hypotheses of the theorems below no
multiplication ever wraps, so debug-mode (panicking) semantics agree. -/
def wrapMul (w : ℕ) (a b : ℕ) : ℕ := a * b % 2 ^ w

/-- Method `checked_mul` of an unsigned kind of width `w` (checked.rs forwards to
the standard library; exact product if representable, else `None`). -/
def checkedMulU (w : ℕ) (a b : ℕ) : Option ℕ :=
  if a * b < 2 ^ w then some (a * b) else none

/-- Method `checked_mul` of a signed kind of width `w`. -/
def checkedMulS (w : ℕ) (a b : ℤ) : Option ℤ :=
  if -2 ^ (w - 1) ≤ a * b ∧ a * b ≤ 2 ^ (w - 1) - 1 then some (a * b) else none

/-- Function `pow` on an unsigned kind of width `w`. -/
def powU (w : ℕ) (b e : ℕ) : ℕ := powG 1 (wrapMul w) b e

/-- Function `checked_pow` on an unsigned kind of width `w`. -/
def checkedPowU (w : ℕ) (b e : ℕ) : Option ℕ := checkedPowG 1 (checkedMulU w) b e

/-- Function `checked_pow` on a signed kind of width `w`. -/
def checkedPowS (w : ℕ) (b : ℤ) (e : ℕ) : Option ℤ := checkedPowG 1 (checkedMulS w) b e

/-- Wrapping (release-mode) multiplication of a signed kind of width `w`:
the two's-complement reinterpretation of the product modulo `2^w`; as with
`wrapMul`, under the `checked_pow = Some` hypotheses no multiplication
wraps, so debug-mode semantics agree. -/
def wrapMulS (w : ℕ) (a b : ℤ) : ℤ := toSigned w (a * b % 2 ^ w)

/-- Function `pow` on a signed kind of width `w`. -/
def powS (w : ℕ) (b : ℤ) (e : ℕ) : ℤ := powG 1 (wrapMulS w) b e

/-! ## Theorems -/

theorem wideningMul_eq_divMod (W a b : ℕ) (ha : a < 2 ^ W) (hb : b < 2 ^ W) :
    wideningMul W a b = (a * b % 2 ^ W, a * b / 2 ^ W) := by
  have hab : a * b < 2 ^ (2 * W) := by
    have := Nat.mul_lt_mul_of_lt_of_lt ha hb
    rwa [← pow_add, ← two_mul] at this
  have hdiv : a * b / 2 ^ W < 2 ^ W := by
    apply Nat.div_lt_of_lt_mul
    rwa [two_mul, pow_add] at hab
  simp only [wideningMul, Nat.shiftRight_eq_div_pow]
  rw [Nat.mod_eq_of_lt hab, Nat.mod_eq_of_lt hdiv]

theorem wideningMul_low_add_high (W a b : ℕ) (ha : a < 2 ^ W) (hb : b < 2 ^ W) :
    (wideningMul W a b).1 + (wideningMul W a b).2 * 2 ^ W = a * b := by
  rw [wideningMul_eq_divMod W a b ha hb]
  simpa [mul_comm] using (Nat.mod_add_div (a * b) (2 ^ W)).symm ▸ rfl

theorem wideningMul_max_max (W : ℕ) (hW : 1 ≤ W) :
    wideningMul W (2 ^ W - 1) (2 ^ W - 1) = (1, 2 ^ W - 2) := by
  have hP : 2 ≤ 2 ^ W := by
    calc 2 = 2 ^ 1 := rfl
    _ ≤ 2 ^ W := Nat.pow_le_pow_right (by norm_num) hW
  have hlt : 2 ^ W - 1 < 2 ^ W := by omega
  rw [wideningMul_eq_divMod W _ _ hlt hlt]
  obtain ⟨Q, hQ⟩ : ∃ Q, 2 ^ W = Q + 2 := ⟨2 ^ W - 2, by omega⟩
  have h1 : 2 ^ W - 1 = Q + 1 := by omega
  have h2 : 2 ^ W - 2 = Q := by omega
  have hsq : (2 ^ W - 1) * (2 ^ W - 1) = 2 ^ W * (2 ^ W - 2) + 1 := by
    rw [h1, h2, hQ]; ring
  rw [hsq, hQ, Nat.mul_add_mod, Nat.mul_add_div (by omega)]
  have : (1 : ℕ) % (Q + 2) = 1 := Nat.mod_eq_of_lt (by omega)
  have h4 : (1 : ℕ) / (Q + 2) = 0 := Nat.div_eq_of_lt (by omega)
  rw [this, h4, h2.symm, hQ]
  simp

theorem u128WideningMul_eq_divMod (a b : ℕ) (ha : a < 2 ^ 128) (hb : b < 2 ^ 128) :
    u128WideningMul a b = (a * b % 2 ^ 128, a * b / 2 ^ 128) := by
  simp only [u128WideningMul, Nat.and_pow_two_sub_one_eq_mod,
    Nat.shiftRight_eq_div_pow, Nat.shiftLeft_eq]
  have hM : (0 : ℕ) < 2 ^ 64 := by positivity
  have ha1 : a % 2 ^ 64 < 2 ^ 64 := Nat.mod_lt _ hM
  have ha2 : a / 2 ^ 64 < 2 ^ 64 := by
    apply Nat.div_lt_of_lt_mul; norm_num at ha ⊢; exact ha
  have hb1 : b % 2 ^ 64 < 2 ^ 64 := Nat.mod_lt _ hM
  have hb2 : b / 2 ^ 64 < 2 ^ 64 := by
    apply Nat.div_lt_of_lt_mul; norm_num at hb ⊢; exact hb
  set a1 := a % 2 ^ 64 with ha1d
  set a2 := a / 2 ^ 64 with ha2d
  set b1 := b % 2 ^ 64 with hb1d
  set b2 := b / 2 ^ 64 with hb2d
  -- the four partial products and their bounds
  have hp11 : a1 * b1 < 2 ^ 128 := by
    calc a1 * b1 < 2 ^ 64 * 2 ^ 64 := Nat.mul_lt_mul_of_lt_of_lt ha1 hb1
    _ = 2 ^ 128 := by norm_num
  have hp12 : a1 * b2 < 2 ^ 128 := by
    calc a1 * b2 < 2 ^ 64 * 2 ^ 64 := Nat.mul_lt_mul_of_lt_of_lt ha1 hb2
    _ = 2 ^ 128 := by norm_num
  have hp21 : b1 * a2 < 2 ^ 128 := by
    calc b1 * a2 < 2 ^ 64 * 2 ^ 64 := Nat.mul_lt_mul_of_lt_of_lt hb1 ha2
    _ = 2 ^ 128 := by norm_num
  have hp22 : a2 * b2 < 2 ^ 128 := by
    calc a2 * b2 < 2 ^ 64 * 2 ^ 64 := Nat.mul_lt_mul_of_lt_of_lt ha2 hb2
    _ = 2 ^ 128 := by norm_num
  rw [Nat.mod_eq_of_lt hp11, Nat.mod_eq_of_lt hp21, Nat.mod_eq_of_lt hp12,
    Nat.mod_eq_of_lt hp22]
  -- the running sums never wrap modulo 2^128
  have hq11 : a1 * b1 / 2 ^ 64 < 2 ^ 64 := by
    apply Nat.div_lt_of_lt_mul; norm_num at hp11 ⊢; exact hp11
  have e21 : b1 * a2 ≤ (2 ^ 64 - 1) * (2 ^ 64 - 1) :=
    Nat.mul_le_mul (by omega) (by omega)
  have e12 : a1 * b2 ≤ (2 ^ 64 - 1) * (2 ^ 64 - 1) :=
    Nat.mul_le_mul (by omega) (by omega)
  have e22 : a2 * b2 ≤ (2 ^ 64 - 1) * (2 ^ 64 - 1) :=
    Nat.mul_le_mul (by omega) (by omega)
  have ht5 : b1 * a2 + a1 * b1 / 2 ^ 64 < 2 ^ 128 := by omega
  rw [Nat.mod_eq_of_lt ht5]
  have hr5 : (b1 * a2 + a1 * b1 / 2 ^ 64) % 2 ^ 64 < 2 ^ 64 := Nat.mod_lt _ hM
  have ht6 : a1 * b2 + (b1 * a2 + a1 * b1 / 2 ^ 64) % 2 ^ 64 < 2 ^ 128 := by omega
  rw [Nat.mod_eq_of_lt ht6]
  have hq5 : (b1 * a2 + a1 * b1 / 2 ^ 64) / 2 ^ 64 < 2 ^ 64 := by
    apply Nat.div_lt_of_lt_mul; norm_num at ht5 ⊢; exact ht5
  have hq6 : (a1 * b2 + (b1 * a2 + a1 * b1 / 2 ^ 64) % 2 ^ 64) / 2 ^ 64 < 2 ^ 64 := by
    apply Nat.div_lt_of_lt_mul; norm_num at ht6 ⊢; exact ht6
  have hhi3 : a2 * b2 + (b1 * a2 + a1 * b1 / 2 ^ 64) / 2 ^ 64 < 2 ^ 128 := by omega
  rw [Nat.mod_eq_of_lt hhi3]
  have hhi4 : a2 * b2 + (b1 * a2 + a1 * b1 / 2 ^ 64) / 2 ^ 64 +
      (a1 * b2 + (b1 * a2 + a1 * b1 / 2 ^ 64) % 2 ^ 64) / 2 ^ 64 < 2 ^ 128 := by omega
  rw [Nat.mod_eq_of_lt hhi4]
  -- the shifted low half: `<< 64` then `| (l4 & LOW_MASK)` is plain addition
  have hsplit : (2 : ℕ) ^ 128 = 2 ^ 64 * 2 ^ 64 := by norm_num
  rw [hsplit, Nat.mul_mod_mul_right]
  have hl4b : a1 * b1 % 2 ^ 64 < 2 ^ 64 := Nat.mod_lt _ hM
  rw [mul_comm ((a1 * b2 + (b1 * a2 + a1 * b1 / 2 ^ 64) % 2 ^ 64) % 2 ^ 64) (2 ^ 64),
    ← Nat.mul_add_lt_is_or hl4b]
  -- now a pure arithmetic identity over the half-limb decompositions
  have hadecomp : 2 ^ 64 * a2 + a1 = a := Nat.div_add_mod a (2 ^ 64)
  have hbdecomp : 2 ^ 64 * b2 + b1 = b := Nat.div_add_mod b (2 ^ 64)
  have hab : a * b = 2 ^ 64 * 2 ^ 64 * (a2 * b2) + 2 ^ 64 * (b1 * a2) +
      2 ^ 64 * (a1 * b2) + a1 * b1 := by
    rw [← hadecomp, ← hbdecomp]; ring
  have d11 := Nat.div_add_mod (a1 * b1) (2 ^ 64)
  have d5 := Nat.div_add_mod (b1 * a2 + a1 * b1 / 2 ^ 64) (2 ^ 64)
  have d6 := Nat.div_add_mod (a1 * b2 + (b1 * a2 + a1 * b1 / 2 ^ 64) % 2 ^ 64) (2 ^ 64)
  have dab := Nat.div_add_mod (a * b) (2 ^ 64 * 2 ^ 64)
  have habmod : a * b % (2 ^ 64 * 2 ^ 64) < 2 ^ 64 * 2 ^ 64 :=
    Nat.mod_lt _ (by positivity)
  refine Prod.ext ?_ ?_ <;> simp only <;> omega

/-- C1: for every unsigned width `W` and operands `a, b < 2^W`, `widening_mul`
returns `(low, high)` with `a * b = low + high * 2^W` exactly; in particular
`widening_mul(MAX, MAX) = (1, MAX - 1)`, including for `u128`, whose result is
computed by the schoolbook half-limb algorithm with explicit carries. -/
theorem widening_mul_exact :
    (∀ W a b : ℕ, 1 ≤ W → a < 2 ^ W → b < 2 ^ W →
      (wideningMul W a b).1 + (wideningMul W a b).2 * 2 ^ W = a * b) ∧
    (∀ W : ℕ, 1 ≤ W → wideningMul W (2 ^ W - 1) (2 ^ W - 1) = (1, 2 ^ W - 2)) ∧
    (∀ a b : ℕ, a < 2 ^ 128 → b < 2 ^ 128 →
      (u128WideningMul a b).1 + (u128WideningMul a b).2 * 2 ^ 128 = a * b) ∧
    u128WideningMul (2 ^ 128 - 1) (2 ^ 128 - 1) = (1, 2 ^ 128 - 2) := by
  refine ⟨fun W a b _ ha hb => wideningMul_low_add_high W a b ha hb,
    fun W hW => wideningMul_max_max W hW, fun a b ha hb => ?_, ?_⟩
  · rw [u128WideningMul_eq_divMod a b ha hb]
    simpa [mul_comm] using (Nat.mod_add_div (a * b) (2 ^ 128)).symm ▸ rfl
  · rw [u128WideningMul_eq_divMod _ _ (by norm_num) (by norm_num)]
    norm_num

theorem convertInt_spec (s d : Kind) (v : ℤ)
    (hs : 1 ≤ s.width) (hd : 1 ≤ d.width) (hv : s.InRange v) :
    convertInt s d v = if d.InRange v then some v else none := by
  rcases s with ⟨ss, ws⟩
  rcases d with ⟨ds, wd⟩
  simp only [Kind.InRange, Kind.minVal, Kind.maxVal] at hv ⊢
  simp only at hs hd
  cases ss <;> cases ds <;>
    simp only [convertInt, intToInt, intToUint, uintToInt, uintToUint,
      Bool.false_eq_true, if_false, if_true] at hv ⊢
  · -- unsigned to unsigned
    by_cases hw : ws ≤ wd
    · have hm : (2 : ℤ) ^ ws ≤ 2 ^ wd := pow_le_pow_right₀ (by norm_num) hw
      split_ifs <;> first | rfl | omega
    · split_ifs <;> first | rfl | omega
  · -- unsigned to signed
    have hpos : (0 : ℤ) < 2 ^ (wd - 1) := by positivity
    by_cases hw : ws < wd
    · have hm : (2 : ℤ) ^ ws ≤ 2 ^ (wd - 1) := pow_le_pow_right₀ (by norm_num) (by omega)
      split_ifs <;> first | rfl | omega
    · split_ifs <;> first | rfl | omega
  · -- signed to unsigned
    by_cases hw : ws < wd
    · have hm : (2 : ℤ) ^ (ws - 1) ≤ 2 ^ wd := pow_le_pow_right₀ (by norm_num) (by omega)
      split_ifs <;> first | rfl | omega
    · split_ifs <;> first | rfl | omega
  · -- signed to signed
    by_cases hw : ws ≤ wd
    · have hm : (2 : ℤ) ^ (ws - 1) ≤ 2 ^ (wd - 1) :=
        pow_le_pow_right₀ (by norm_num) (by omega)
      split_ifs <;> first | rfl | omega
    · split_ifs <;> first | rfl | omega

/-- C4 (amended): for kinds `s`, `d` of the integer conversion family and a
value `v` of `s`, the conversion returns `some v` exactly when `v` is
representable in `d`, and `none` otherwise.  Consequently it always succeeds
when `d` is at least as wide with matching signedness, or when `s` is
unsigned and `d` is signed and strictly wider; and a negative value sent to
an unsigned kind always fails. -/
theorem convertInt_correct (s d : Kind) (v : ℤ)
    (hs : 1 ≤ s.width) (hd : 1 ≤ d.width) (hv : s.InRange v) :
    convertInt s d v = if d.InRange v then some v else none :=
  convertInt_spec s d v hs hd hv

theorem convertInt_correct_witness :
    Kind.InRange ⟨true, 32⟩ 300 ∧
    convertInt ⟨true, 32⟩ ⟨true, 8⟩ 300 =
      (if Kind.InRange ⟨true, 8⟩ 300 then some 300 else none) :=
  ⟨by norm_num [Kind.InRange, Kind.minVal, Kind.maxVal],
   convertInt_correct ⟨true, 32⟩ ⟨true, 8⟩ 300 (by norm_num) (by norm_num)
     (by norm_num [Kind.InRange, Kind.minVal, Kind.maxVal])⟩

/-- C4 counterexample: `200` is a value of `u8`, and `u8` is unsigned with
`i8` a signed kind of width at least (equal to) `u8`'s, so the claim asserts
the conversion always succeeds; the code returns `None`. -/
theorem convertInt_width_equal_cex :
    Kind.InRange ⟨false, 8⟩ 200 ∧ convertInt ⟨false, 8⟩ ⟨true, 8⟩ 200 = none := by
  refine ⟨by norm_num [Kind.InRange, Kind.minVal, Kind.maxVal], ?_⟩
  norm_num [convertInt, uintToInt]

theorem ratTrunc_intCast (n : ℤ) : ratTrunc (n : ℚ) = n := by
  unfold ratTrunc
  split_ifs <;> simp

theorem castTrunc_intCast (lo hi n : ℤ) :
    Fl.castTrunc lo hi (Fl.finite (n : ℚ)) = max lo (min hi n) := by
  simp [Fl.castTrunc, ratTrunc_intCast]

theorem ratTrunc_lt_iff (q : ℚ) (n : ℤ) (hn : 0 < n) : ratTrunc q < n ↔ q < (n : ℚ) := by
  unfold ratTrunc
  split_ifs with h
  · have hc : ⌈q⌉ ≤ 0 := Int.ceil_le.mpr (by exact_mod_cast h.le)
    have hq : q < (n : ℚ) := lt_of_lt_of_le h (by exact_mod_cast hn.le)
    exact iff_of_true (by omega) hq
  · exact Int.floor_lt

theorem le_ratTrunc_iff (q : ℚ) (n : ℤ) (hn : n ≤ 0) : n ≤ ratTrunc q ↔ (n : ℚ) - 1 < q := by
  unfold ratTrunc
  split_ifs with h
  · have hrw : n ≤ ⌈q⌉ ↔ n - 1 < ⌈q⌉ := by omega
    rw [hrw, Int.lt_ceil]
    push_cast
    exact Iff.rfl
  · have h0 : (0 : ℤ) ≤ ⌊q⌋ := Int.floor_nonneg.mpr (not_lt.mp h)
    have hq : (n : ℚ) - 1 < q := by
      have hn' : ((n : ℤ) : ℚ) ≤ 0 := by exact_mod_cast hn
      have hq0 : (0 : ℚ) ≤ q := not_lt.mp h
      linarith
    exact iff_of_true (by omega) hq

theorem floatToSignedWide_finite (w : ℕ) (q : ℚ) :
    floatToSignedWide w (Fl.finite q) =
      if -(2 ^ (w - 1)) ≤ ratTrunc q ∧ ratTrunc q ≤ 2 ^ (w - 1) - 1 then some (ratTrunc q)
      else none := by
  have h1 := le_ratTrunc_iff q (-(2 ^ (w - 1))) (neg_nonpos.mpr (by positivity))
  have h2 := ratTrunc_lt_iff q (2 ^ (w - 1)) (by positivity)
  push_cast at h1 h2
  simp only [floatToSignedWide, Fl.lt, Fl.castTrunc, Bool.and_eq_true, decide_eq_true_eq]
  split_ifs with hA hB hB
  · have ht1 : -(2 ^ (w - 1)) ≤ ratTrunc q := h1.mpr (by linarith [hA.1])
    have ht2 : ratTrunc q < 2 ^ (w - 1) := h2.mpr hA.2
    congr 1
    omega
  · exact absurd ⟨h1.mpr (by linarith [hA.1]), by have := h2.mpr hA.2; omega⟩ hB
  · exact absurd ⟨by have := h1.mp hB.1; linarith, h2.mp (by omega)⟩ hA
  · rfl

theorem floatToSignedNarrow_intCast (w : ℕ) (n : ℤ) :
    floatToSignedNarrow w (Fl.finite (n : ℚ)) =
      if -(2 ^ (w - 1)) ≤ n ∧ n < 2 ^ (w - 1) then
        some (max (-(2 ^ (w - 1))) (min (2 ^ (w - 1) - 1) n))
      else none := by
  simp only [floatToSignedNarrow, Fl.le, Fl.lt, Bool.and_eq_true, decide_eq_true_eq]
  rw [castTrunc_intCast]
  have e1 : (-(2 ^ (w - 1) : ℚ) ≤ (n : ℚ)) ↔ -(2 ^ (w - 1)) ≤ n := by
    rw [show (-(2 ^ (w - 1) : ℚ)) = ((-(2 ^ (w - 1)) : ℤ) : ℚ) by push_cast; ring]
    exact Int.cast_le
  have e2 : ((n : ℚ) < (2 ^ (w - 1) : ℚ)) ↔ n < 2 ^ (w - 1) := by
    rw [show ((2 ^ (w - 1) : ℚ)) = (((2 ^ (w - 1)) : ℤ) : ℚ) by push_cast; ring]
    exact Int.cast_lt
  split_ifs with hA hB hB
  · rfl
  · exact absurd ⟨e1.mp hA.1, e2.mp hA.2⟩ hB
  · exact absurd ⟨e1.mpr hB.1, e2.mpr hB.2⟩ hA
  · rfl

/-- C2: float-to-integer conversion truncates toward zero and succeeds
exactly when the truncated value lies in `[MIN, MAX]` of the destination:
for `f64 -> i32` (float wider), the exclusive exact bounds `MIN - 1` and
`MAX + 1` accept exactly the values truncating into range, so `i32::MAX`
and `i32::MIN` convert and values at `MAX + 1` or `MIN - 1` do not; for
`f64 -> i64` (float not wider), the inclusive `MIN` and exclusive
rounded-up `MAX` bounds accept the values exactly at `MIN` and `MAX` and
reject values outside. -/
theorem float_to_int_truncates_and_bounds :
    (∀ q : ℚ, floatToSignedWide 32 (Fl.finite q) =
      if -(2 ^ 31) ≤ ratTrunc q ∧ ratTrunc q ≤ 2 ^ 31 - 1 then some (ratTrunc q)
      else none) ∧
    floatToSignedWide 32 (Fl.finite ((2147483647 : ℤ) : ℚ)) = some 2147483647 ∧
    floatToSignedWide 32 (Fl.finite ((2147483648 : ℤ) : ℚ)) = none ∧
    floatToSignedWide 32 (Fl.finite ((-2147483648 : ℤ) : ℚ)) = some (-2147483648) ∧
    floatToSignedWide 32 (Fl.finite ((-2147483649 : ℤ) : ℚ)) = none ∧
    floatToSignedNarrow 64 (Fl.finite ((-(2 ^ 63) : ℤ) : ℚ)) = some (-(2 ^ 63)) ∧
    floatToSignedNarrow 64 (Fl.finite ((2 ^ 63 - 1 : ℤ) : ℚ)) = some (2 ^ 63 - 1) ∧
    floatToSignedNarrow 64 (Fl.finite ((2 ^ 63 : ℤ) : ℚ)) = none ∧
    floatToSignedNarrow 64 (Fl.finite ((-(2 ^ 63) - 1 : ℤ) : ℚ)) = none := by
  refine ⟨fun q => floatToSignedWide_finite 32 q, ?_, ?_, ?_, ?_, ?_, ?_, ?_, ?_⟩
  · rw [floatToSignedWide_finite, ratTrunc_intCast]; norm_num [max_def, min_def]
  · rw [floatToSignedWide_finite, ratTrunc_intCast]; norm_num [max_def, min_def]
  · rw [floatToSignedWide_finite, ratTrunc_intCast]; norm_num [max_def, min_def]
  · rw [floatToSignedWide_finite, ratTrunc_intCast]; norm_num [max_def, min_def]
  · rw [floatToSignedNarrow_intCast]; norm_num [max_def, min_def]
  · rw [floatToSignedNarrow_intCast]; norm_num [max_def, min_def]
  · rw [floatToSignedNarrow_intCast]; norm_num [max_def, min_def]
  · rw [floatToSignedNarrow_intCast]; norm_num [max_def, min_def]

/-- C10: for every integer destination kind, the fallible float-to-integer
conversion of NaN, `+inf`, or `-inf` returns `None`: NaN comparisons are
false and the infinities fall outside every range test. -/
theorem float_nonfinite_to_int_none :
    (∀ w : ℕ, floatToSignedWide w Fl.nan = none ∧ floatToSignedWide w Fl.posInf = none ∧
      floatToSignedWide w Fl.negInf = none) ∧
    (∀ w : ℕ, floatToSignedNarrow w Fl.nan = none ∧ floatToSignedNarrow w Fl.posInf = none ∧
      floatToSignedNarrow w Fl.negInf = none) ∧
    (∀ w : ℕ, floatToUnsigned w Fl.nan = none ∧ floatToUnsigned w Fl.posInf = none ∧
      floatToUnsigned w Fl.negInf = none) :=
  ⟨fun _ => ⟨rfl, rfl, rfl⟩, fun _ => ⟨rfl, rfl, rfl⟩, fun _ => ⟨rfl, rfl, rfl⟩⟩

theorem bitLenAux_zero (fuel : ℕ) : bitLenAux fuel 0 = 0 := by
  cases fuel <;> rfl

theorem bitLenAux_spec (fuel : ℕ) : ∀ n, n < 2 ^ fuel → n ≠ 0 →
    2 ^ (bitLenAux fuel n - 1) ≤ n ∧ n < 2 ^ bitLenAux fuel n := by
  induction fuel with
  | zero => intro n h hn; omega
  | succ f ih =>
    intro n h hn
    rw [bitLenAux, if_neg hn]
    by_cases h1 : n / 2 = 0
    · have hone : n = 1 := by omega
      subst hone
      rw [bitLenAux_zero]
      norm_num
    · have hf2 : n / 2 < 2 ^ f := by
        have hp : (2 : ℕ) ^ (f + 1) = 2 * 2 ^ f := by ring
        omega
      obtain ⟨hl, hr⟩ := ih (n / 2) hf2 h1
      have key1 : 2 ^ bitLenAux f (n / 2) ≤ n := by
        rcases Nat.eq_zero_or_pos (bitLenAux f (n / 2)) with h0 | h0
        · rw [h0]; simpa using Nat.one_le_iff_ne_zero.mpr hn
        · have h2 : 2 ^ bitLenAux f (n / 2) = 2 * 2 ^ (bitLenAux f (n / 2) - 1) := by
            rw [← pow_succ']
            congr 1
            omega
          omega
      have key2 : n < 2 ^ (bitLenAux f (n / 2) + 1) := by
        have h2 : (2 : ℕ) ^ (bitLenAux f (n / 2) + 1) = 2 * 2 ^ bitLenAux f (n / 2) := by ring
        omega
      exact ⟨by simpa using key1, key2⟩

theorem bitLen_spec (n : ℕ) (h : n < 2 ^ 128) (hn : n ≠ 0) :
    2 ^ (bitLen n - 1) ≤ n ∧ n < 2 ^ bitLen n := bitLenAux_spec 128 n h hn

theorem bitLen_le (n t : ℕ) (h : n < 2 ^ 128) (hn : n ≠ 0) (ht : n < 2 ^ t) :
    bitLen n ≤ t := by
  obtain ⟨hl, _⟩ := bitLen_spec n h hn
  by_contra hc
  push_neg at hc
  have : (2 : ℕ) ^ t ≤ 2 ^ (bitLen n - 1) := Nat.pow_le_pow_right (by norm_num) (by omega)
  omega

theorem roundSig_eq_self_iff (sig n : ℕ) (hsig : 1 ≤ sig) (hn : n < 2 ^ 128) :
    roundSig sig n = n ↔ ∃ m k, n = m * 2 ^ k ∧ m ≤ 2 ^ sig := by
  by_cases hsmall : n ≤ 2 ^ sig
  · refine iff_of_true (by simp only [roundSig]; rw [if_pos hsmall]) ⟨n, 0, by simp, hsmall⟩
  · have hn0 : n ≠ 0 := by
      have hp : 0 < 2 ^ sig := Nat.two_pow_pos sig
      omega
    obtain ⟨hlow, hhigh⟩ := bitLen_spec n hn hn0
    have hbl : sig + 1 ≤ bitLen n := by
      by_contra hc
      push_neg at hc
      have : (2 : ℕ) ^ bitLen n ≤ 2 ^ sig := Nat.pow_le_pow_right (by norm_num) (by omega)
      omega
    have hq_lt : n / 2 ^ (bitLen n - sig) < 2 ^ sig := by
      apply Nat.div_lt_of_lt_mul
      have he : (2 : ℕ) ^ (bitLen n - sig) * 2 ^ sig = 2 ^ bitLen n := by
        rw [← pow_add]
        congr 1
        omega
      omega
    constructor
    · intro hround
      simp only [roundSig, if_neg hsmall] at hround
      split_ifs at hround with hc
      · exact ⟨n / 2 ^ (bitLen n - sig) + 1, bitLen n - sig, hround.symm, by omega⟩
      · exact ⟨n / 2 ^ (bitLen n - sig), bitLen n - sig, hround.symm, by omega⟩
    · rintro ⟨m, k, hmk, hm⟩
      have hdvd : 2 ^ (bitLen n - sig) ∣ n := by
        have hm0 : m ≠ 0 := by rintro rfl; simp at hmk; omega
        have hnle : n ≤ 2 ^ (sig + k) := by
          rw [hmk, pow_add]
          exact Nat.mul_le_mul_right _ hm
        have h2k : (2 : ℕ) ^ k ∣ n := ⟨m, by rw [hmk]; ring⟩
        rcases Nat.lt_or_ge (bitLen n - sig) (k + 1) with hcase | hcase
        · -- s ≤ k: 2^s divides 2^k divides n
          exact dvd_trans (pow_dvd_pow 2 (show bitLen n - sig ≤ k by omega)) h2k
        · -- s = k + 1 forces n = 2^(sig+k), a power of two
          have hs : bitLen n - sig = k + 1 := by
            have : bitLen n ≤ sig + 1 + k := by
              apply bitLen_le n _ hn hn0
              calc n ≤ 2 ^ (sig + k) := hnle
              _ < 2 ^ (sig + 1 + k) := Nat.pow_lt_pow_right (by norm_num) (by omega)
            omega
          have hneq : n = 2 ^ (sig + k) := by
            have : (2 : ℕ) ^ (sig + k) ≤ n := by
              calc (2 : ℕ) ^ (sig + k) = 2 ^ (bitLen n - 1) := by congr 1; omega
              _ ≤ n := hlow
            omega
          rw [hs, hneq]
          exact pow_dvd_pow 2 (by omega)
      have hr0 : n % 2 ^ (bitLen n - sig) = 0 := Nat.mod_eq_zero_of_dvd hdvd
      simp only [roundSig, if_neg hsmall, hr0]
      have hhalf : (0 : ℕ) < 2 ^ (bitLen n - sig - 1) := by positivity
      rw [if_neg (by push_neg; exact ⟨by omega, by omega⟩)]
      exact Nat.div_mul_cancel hdvd

theorem reprSig_natAbs (sig : ℕ) (n : ℤ) :
    ReprSig sig n ↔ ∃ m k : ℕ, n.natAbs = m * 2 ^ k ∧ m ≤ 2 ^ sig := by
  constructor
  · rintro ⟨m, k, hmk, hm⟩
    refine ⟨m.natAbs, k, ?_, ?_⟩
    · rw [hmk, Int.natAbs_mul]
      congr 1
      rw [Int.natAbs_pow]
      rfl
    · have : (m.natAbs : ℤ) ≤ 2 ^ sig := by rwa [Int.abs_eq_natAbs] at hm
      exact_mod_cast this
  · rintro ⟨m, k, hmk, hm⟩
    rcases Int.natAbs_eq n with he | he
    · refine ⟨(m : ℤ), k, ?_, ?_⟩
      · rw [he, hmk]; push_cast; ring
      · rw [abs_of_nonneg (by positivity)]; exact_mod_cast hm
    · refine ⟨-(m : ℤ), k, ?_, ?_⟩
      · rw [he, hmk]; push_cast; ring
      · rw [abs_neg, abs_of_nonneg (by positivity)]; exact_mod_cast hm

theorem roundIntSig_eq_self_iff (sig : ℕ) (n : ℤ) (hsig : 1 ≤ sig)
    (h1 : -(2 ^ 63) ≤ n) (h2 : n ≤ 2 ^ 63 - 1) :
    roundIntSig sig n = n ↔ ReprSig sig n := by
  have habs : n.natAbs < 2 ^ 128 := by
    have h128 : ((2 : ℤ) ^ 63) < 2 ^ 128 := by norm_num
    have : (n.natAbs : ℤ) ≤ 2 ^ 63 := by rw [← Int.abs_eq_natAbs]; rw [abs_le]; omega
    exact_mod_cast lt_of_le_of_lt this h128
  rw [reprSig_natAbs]
  rw [← roundSig_eq_self_iff sig n.natAbs hsig habs]
  unfold roundIntSig
  split_ifs with hneg
  · constructor
    · intro h
      have : (roundSig sig n.natAbs : ℤ) = -n := by omega
      have hnn : n.natAbs = (-n).toNat := by omega
      omega
    · intro h
      rw [h]
      omega
  · constructor
    · intro h
      omega
    · intro h
      rw [h]
      omega

/-- C3 counterexample: `to_f64(i64::MAX)` returns `Some` (of the rounded
value `2^63`) although `i64::MAX` is not exactly representable in `f64`;
the claim demands the absent result for values not exactly representable. -/
theorem to_f64_lossy_cex :
    i64ToF64 (2 ^ 63 - 1) = some (Fl.finite ((2 ^ 63 : ℤ) : ℚ)) ∧
    ¬ ReprSig 53 (2 ^ 63 - 1) := by
  constructor
  · have h : roundIntSig 53 (2 ^ 63 - 1) = 2 ^ 63 := by decide
    show some (Fl.finite ((roundIntSig 53 (2 ^ 63 - 1) : ℤ) : ℚ)) = _
    rw [h]
  · rintro ⟨m, k, hmk, hm⟩
    cases k with
    | zero =>
      simp only [pow_zero, mul_one] at hmk
      rw [← hmk] at hm
      rw [abs_le] at hm
      omega
    | succ k2 =>
      have hdvd : (2 : ℤ) ∣ 2 ^ 63 - 1 := ⟨m * 2 ^ k2, by rw [hmk]; ring⟩
      omega

/-- C3 (amended): only for integer source and integer destination kinds
does the fallible conversion return the converted value exactly when it is
representable in the destination and the absent result otherwise.  When
the destination is `f32` or `f64` (significand `sig = 24` or `53`) and the
source is an integer kind, `to_f32`/`to_f64` always succeed, returning the
value rounded to the nearest representable float — equal to the input
exactly when the input is `m * 2^k` with `|m| <= 2^sig`, and otherwise a
different, rounded value rather than the absent result (so 64-bit sources
can convert inexactly).  When the source is a float and the destination an
integer kind, the conversion truncates toward zero and succeeds with the
(possibly inexact) truncated value whenever that value is in range, e.g.
`1.5` converts to `Some 1`. -/
theorem fallible_conversion_exactness :
    (∀ (s d : Kind) (v : ℤ), 1 ≤ s.width → 1 ≤ d.width → s.InRange v →
      convertInt s d v = if d.InRange v then some v else none) ∧
    (∀ (sig : ℕ) (n : ℤ), 1 ≤ sig → -(2 ^ 63) ≤ n → n ≤ 2 ^ 63 - 1 →
      intToFloat sig n = some (Fl.finite ((roundIntSig sig n : ℤ) : ℚ)) ∧
      (ReprSig sig n → intToFloat sig n = some (Fl.finite ((n : ℤ) : ℚ))) ∧
      (¬ ReprSig sig n → intToFloat sig n ≠ some (Fl.finite ((n : ℤ) : ℚ)))) ∧
    (∀ q : ℚ, -(2 ^ 31) ≤ ratTrunc q → ratTrunc q ≤ 2 ^ 31 - 1 →
      floatToSignedWide 32 (Fl.finite q) = some (ratTrunc q)) ∧
    floatToSignedWide 32 (Fl.finite (3 / 2)) = some 1 := by
  refine ⟨fun s d v hs hd hv => convertInt_spec s d v hs hd hv, ?_, ?_, ?_⟩
  · intro sig n hsig h1 h2
    refine ⟨rfl, ?_, ?_⟩
    · intro hr
      have h := (roundIntSig_eq_self_iff sig n hsig h1 h2).mpr hr
      show some (Fl.finite ((roundIntSig sig n : ℤ) : ℚ)) = _
      rw [h]
    · intro hr hc
      apply hr
      rw [← roundIntSig_eq_self_iff sig n hsig h1 h2]
      have hq : ((roundIntSig sig n : ℤ) : ℚ) = ((n : ℤ) : ℚ) := by
        have h3 : Fl.finite ((roundIntSig sig n : ℤ) : ℚ) = Fl.finite ((n : ℤ) : ℚ) :=
          Option.some_injective _ hc
        injection h3
      exact_mod_cast hq
  · intro q hlo hhi
    rw [floatToSignedWide_finite, if_pos (And.intro hlo hhi)]
  · have ht : ratTrunc (3 / 2 : ℚ) = 1 := by
      unfold ratTrunc
      rw [if_neg (by norm_num), Int.floor_eq_iff]
      norm_num
    rw [floatToSignedWide_finite, ht]
    norm_num

theorem fallible_conversion_exactness_witness :
    ((1 : ℕ) ≤ 53 ∧ -(2 ^ 63) ≤ (5 : ℤ) ∧ (5 : ℤ) ≤ 2 ^ 63 - 1) ∧
    intToFloat 53 5 = some (Fl.finite ((5 : ℤ) : ℚ)) :=
  ⟨⟨by norm_num, by norm_num, by norm_num⟩,
   (fallible_conversion_exactness.2.1 53 5 (by norm_num) (by norm_num) (by norm_num)).2.1
     ⟨5, 0, by norm_num, by norm_num⟩⟩

theorem widening_mul_exact_witness :
    (wideningMul 8 255 255).1 + (wideningMul 8 255 255).2 * 2 ^ 8 = 255 * 255 ∧
    wideningMul 8 (2 ^ 8 - 1) (2 ^ 8 - 1) = (1, 2 ^ 8 - 2) ∧
    (u128WideningMul 3 5).1 + (u128WideningMul 3 5).2 * 2 ^ 128 = 3 * 5 :=
  ⟨widening_mul_exact.1 8 255 255 (by norm_num) (by norm_num) (by norm_num),
   widening_mul_exact.2.1 8 (by norm_num),
   widening_mul_exact.2.2.1 3 5 (by norm_num) (by norm_num)⟩

/-- C5 counterexample: for `x : u32` and a `u64` shift amount `2^32`, the
amount is at least the bit width 32, yet `checked_shl`/`checked_shr`
return `Some x`: the `as u32` cast truncates the amount to `0` instead of
preserving its value. -/
theorem checked_shl_truncation_cex :
    (32 : ℤ) ≤ 4294967296 ∧ checkedShl 32 7 4294967296 = some 7 ∧
    checkedShr 32 7 4294967296 = some 7 := by
  refine ⟨by norm_num, ?_, ?_⟩ <;> decide

/-- C5 (amended): for every integer kind — unsigned, where the shift is
logical, and signed `i8..isize`, where `shl` shifts the two's-complement
bit pattern (so bits wrap into and out of the sign bit) and `shr` is the
arithmetic, sign-extending shift (flooring division by `2^s`) —
`checked_shl`/`checked_shr` first convert the shift amount to `u32` by the
truncating `as` cast (the amount modulo `2^32`), then return `None`
exactly when the converted amount is at least the operand's bit width, and
`Some` of the shifted value otherwise; amounts whose value fits in `u32`
(in particular every amount of an unsigned rhs kind of width up to 32) are
preserved by the cast, so for those the test compares the true shift
amount. -/
theorem checked_shift_spec :
    (∀ (w x : ℕ) (r : ℤ), checkedShl w x r = checkedShl w x (r % 2 ^ 32) ∧
      checkedShr w x r = checkedShr w x (r % 2 ^ 32)) ∧
    (∀ (w x : ℕ) (r : ℤ), 0 ≤ r → r < 2 ^ 32 →
      (checkedShl w x r = none ↔ (w : ℤ) ≤ r) ∧
      (checkedShr w x r = none ↔ (w : ℤ) ≤ r) ∧
      (r < (w : ℤ) →
        checkedShl w x r = some (x * 2 ^ r.toNat % 2 ^ w) ∧
        checkedShr w x r = some (x / 2 ^ r.toNat))) ∧
    (∀ (w : ℕ) (x r : ℤ),
      checkedShlSigned w x r = checkedShlSigned w x (r % 2 ^ 32) ∧
      checkedShrSigned w x r = checkedShrSigned w x (r % 2 ^ 32)) ∧
    (∀ (w : ℕ) (x r : ℤ), 0 ≤ r → r < 2 ^ 32 →
      (checkedShlSigned w x r = none ↔ (w : ℤ) ≤ r) ∧
      (checkedShrSigned w x r = none ↔ (w : ℤ) ≤ r) ∧
      (r < (w : ℤ) →
        checkedShlSigned w x r = some (toSigned w (x * 2 ^ r.toNat % 2 ^ w)) ∧
        checkedShrSigned w x r = some (Int.fdiv x (2 ^ r.toNat)))) := by
  refine ⟨?_, ?_, ?_, ?_⟩
  · intro w x r
    constructor
    · unfold checkedShl
      rw [Int.emod_emod_of_dvd _ dvd_rfl]
    · unfold checkedShr
      rw [Int.emod_emod_of_dvd _ dvd_rfl]
  · intro w x r h0 h32
    have hr : r % 2 ^ 32 = r := Int.emod_eq_of_lt h0 h32
    unfold checkedShl checkedShr stdCheckedShl stdCheckedShr
    rw [hr]
    refine ⟨?_, ?_, ?_⟩
    · split_ifs with h
      · exact iff_of_false (by simp) (by omega)
      · exact iff_of_true rfl (by omega)
    · split_ifs with h
      · exact iff_of_false (by simp) (by omega)
      · exact iff_of_true rfl (by omega)
    · intro hlt
      rw [if_pos (by omega), if_pos (by omega)]
      exact ⟨rfl, rfl⟩
  · intro w x r
    constructor
    · unfold checkedShlSigned
      rw [Int.emod_emod_of_dvd _ dvd_rfl]
    · unfold checkedShrSigned
      rw [Int.emod_emod_of_dvd _ dvd_rfl]
  · intro w x r h0 h32
    have hr : r % 2 ^ 32 = r := Int.emod_eq_of_lt h0 h32
    unfold checkedShlSigned checkedShrSigned stdCheckedShlSigned stdCheckedShrSigned
    rw [hr]
    refine ⟨?_, ?_, ?_⟩
    · split_ifs with h
      · exact iff_of_false (by simp) (by omega)
      · exact iff_of_true rfl (by omega)
    · split_ifs with h
      · exact iff_of_false (by simp) (by omega)
      · exact iff_of_true rfl (by omega)
    · intro hlt
      rw [if_pos (by omega), if_pos (by omega)]
      exact ⟨rfl, rfl⟩

theorem checked_shift_spec_witness :
    ((0 : ℤ) ≤ 5 ∧ (5 : ℤ) < 2 ^ 32 ∧ (5 : ℤ) < (32 : ℕ)) ∧
    checkedShl 32 7 5 = some (7 * 2 ^ (5 : ℤ).toNat % 2 ^ 32) ∧
    checkedShr 32 7 5 = some (7 / 2 ^ (5 : ℤ).toNat) ∧
    ((0 : ℤ) ≤ 6 ∧ (6 : ℤ) < 2 ^ 32 ∧ (6 : ℤ) < (8 : ℕ)) ∧
    checkedShlSigned 8 (-3) 6 = some (toSigned 8 ((-3) * 2 ^ (6 : ℤ).toNat % 2 ^ 8)) ∧
    checkedShrSigned 8 (-3) 6 = some (Int.fdiv (-3) (2 ^ (6 : ℤ).toNat)) :=
  ⟨⟨by norm_num, by norm_num, by norm_num⟩,
   ((checked_shift_spec.2.1 32 7 5 (by norm_num) (by norm_num)).2.2 (by norm_num)).1,
   ((checked_shift_spec.2.1 32 7 5 (by norm_num) (by norm_num)).2.2 (by norm_num)).2,
   ⟨by norm_num, by norm_num, by norm_num⟩,
   ((checked_shift_spec.2.2.2 8 (-3) 6 (by norm_num) (by norm_num)).2.2 (by norm_num)).1,
   ((checked_shift_spec.2.2.2 8 (-3) 6 (by norm_num) (by norm_num)).2.2 (by norm_num)).2⟩

theorem tmod_neg_arg (a b : ℤ) : (-a).tmod b = -(a.tmod b) := by
  rw [Int.tmod_def, Int.tmod_def, Int.neg_tdiv]
  ring

theorem tmod_bounds (a v : ℤ) (hv : v ≠ 0) : -|v| < a.tmod v ∧ a.tmod v < |v| := by
  have key : ∀ x w : ℤ, 0 < w → -w < x.tmod w ∧ x.tmod w < w := by
    intro x w hw
    rcases le_or_lt 0 x with hx | hx
    · have h1 := Int.tmod_nonneg w hx
      have h2 := Int.tmod_lt_of_pos x hw
      omega
    · have h1 := Int.tmod_nonneg w (show (0 : ℤ) ≤ -x by omega)
      have h2 := Int.tmod_lt_of_pos (-x) hw
      have h3 := tmod_neg_arg (-x) w
      simp only [neg_neg] at h3
      omega
  rcases lt_or_gt_of_ne hv with hneg | hpos
  · have hk := key a (-v) (by omega)
    rw [Int.tmod_neg] at hk
    rw [abs_of_neg hneg]
    omega
  · have hk := key a v hpos
    rw [abs_of_pos hpos]
    omega

theorem euclidInt_spec (a v : ℤ) (hv : v ≠ 0) :
    a = divEuclidInt a v * v + remEuclidInt a v ∧
    0 ≤ remEuclidInt a v ∧ remEuclidInt a v < |v| ∧
    (0 ≤ a → 0 < v → divEuclidInt a v = a.tdiv v ∧ remEuclidInt a v = a.tmod v) := by
  obtain ⟨hb1, hb2⟩ := tmod_bounds a v hv
  have hid := Int.tdiv_add_tmod a v
  unfold divEuclidInt remEuclidInt
  split_ifs with h1 h2
  · rw [abs_of_pos h2] at hb1 hb2 ⊢
    have hdist : (a.tdiv v - 1) * v = v * a.tdiv v - v := by ring
    refine ⟨by omega, by omega, by omega, ?_⟩
    intro ha _
    exact absurd (Int.tmod_nonneg v ha) (by omega)
  · have hvneg : v < 0 := by omega
    rw [abs_of_neg hvneg] at hb1 hb2 ⊢
    have hdist : (a.tdiv v + 1) * v = v * a.tdiv v + v := by ring
    refine ⟨by omega, by omega, by omega, ?_⟩
    intro _ hv2
    omega
  · have hdist : a.tdiv v * v = v * a.tdiv v := by ring
    exact ⟨by omega, by omega, hb2, fun _ _ => ⟨rfl, rfl⟩⟩

/-- C6: the Euclidean invariant: for every `a` and nonzero `v`,
`a = div_euclid(a,v) * v + rem_euclid(a,v)` exactly and
`0 <= rem_euclid(a,v) < |v|`; for nonnegative operands (the unsigned
kinds) the pair degenerates to ordinary truncating division and
remainder. -/
theorem euclid_invariant (a v : ℤ) (hv : v ≠ 0) :
    a = divEuclidInt a v * v + remEuclidInt a v ∧
    0 ≤ remEuclidInt a v ∧ remEuclidInt a v < |v| ∧
    (0 ≤ a → 0 < v → divEuclidInt a v = a.tdiv v ∧ remEuclidInt a v = a.tmod v) :=
  euclidInt_spec a v hv

theorem euclid_invariant_witness :
    (-3 : ℤ) ≠ 0 ∧
    (7 : ℤ) = divEuclidInt 7 (-3) * (-3) + remEuclidInt 7 (-3) ∧
    0 ≤ remEuclidInt 7 (-3) :=
  ⟨by norm_num, (euclid_invariant 7 (-3) (by norm_num)).1,
   (euclid_invariant 7 (-3) (by norm_num)).2.1⟩

/-- C7: the checked Euclidean operations return `None` exactly on a zero
divisor or on `(MIN, -1)` for a signed kind of width `w`; in every other
case they return `Some` of the Euclidean quotient/remainder (which satisfy
the Euclidean invariant); unsigned kinds fail exactly on a zero divisor. -/
theorem checked_euclid_spec (w : ℕ) (a v : ℤ) :
    (checkedDivEuclidInt w a v = none ↔ v = 0 ∨ (a = -2 ^ (w - 1) ∧ v = -1)) ∧
    (checkedRemEuclidInt w a v = none ↔ v = 0 ∨ (a = -2 ^ (w - 1) ∧ v = -1)) ∧
    (¬(v = 0 ∨ (a = -2 ^ (w - 1) ∧ v = -1)) →
      checkedDivEuclidInt w a v = some (divEuclidInt a v) ∧
      checkedRemEuclidInt w a v = some (remEuclidInt a v) ∧
      a = divEuclidInt a v * v + remEuclidInt a v ∧
      0 ≤ remEuclidInt a v ∧ remEuclidInt a v < |v|) ∧
    (∀ a2 v2 : ℕ, (checkedDivEuclidUint a2 v2 = none ↔ v2 = 0) ∧
      (checkedRemEuclidUint a2 v2 = none ↔ v2 = 0)) := by
  refine ⟨?_, ?_, ?_, ?_⟩
  · unfold checkedDivEuclidInt
    split_ifs with h
    · exact iff_of_true rfl h
    · exact iff_of_false (by simp) h
  · unfold checkedRemEuclidInt
    split_ifs with h
    · exact iff_of_true rfl h
    · exact iff_of_false (by simp) h
  · intro h
    have hv : v ≠ 0 := fun hc => h (Or.inl hc)
    obtain ⟨h1, h2, h3, -⟩ := euclidInt_spec a v hv
    unfold checkedDivEuclidInt checkedRemEuclidInt
    rw [if_neg h, if_neg h]
    exact ⟨rfl, rfl, h1, h2, h3⟩
  · intro a2 v2
    constructor
    · unfold checkedDivEuclidUint
      split_ifs with h
      · exact iff_of_true rfl h
      · exact iff_of_false (by simp) h
    · unfold checkedRemEuclidUint
      split_ifs with h
      · exact iff_of_true rfl h
      · exact iff_of_false (by simp) h

theorem checked_euclid_spec_witness :
    ¬((-3 : ℤ) = 0 ∨ ((7 : ℤ) = -2 ^ (8 - 1) ∧ (-3 : ℤ) = -1)) ∧
    checkedDivEuclidInt 8 7 (-3) = some (divEuclidInt 7 (-3)) :=
  ⟨by norm_num, ((checked_euclid_spec 8 7 (-3)).2.2.1 (by norm_num)).1⟩

theorem checkedMulU_some (w a b c : ℕ) (h : checkedMulU w a b = some c) :
    c = a * b ∧ a * b < 2 ^ w := by
  unfold checkedMulU at h
  split_ifs at h with hc
  exact ⟨(Option.some_injective _ h).symm, hc⟩

theorem checkedPowLoopA_some (w : ℕ) :
    ∀ (fuel : ℕ) (b e : ℕ) (r : ℕ × ℕ), e ≤ fuel → b < 2 ^ w →
      checkedPowLoopA (checkedMulU w) fuel b e = some r →
      powLoopA (wrapMul w) fuel b e = r ∧ r.1 < 2 ^ w ∧ r.1 ^ r.2 = b ^ e ∧
        (e ≠ 0 → r.2 % 2 = 1 ∧ r.2 ≠ 0) ∧ r.2 ≤ e := by
  intro fuel
  induction fuel with
  | zero =>
    intro b e r he hb hsome
    have he0 : e = 0 := by omega
    subst he0
    simp only [checkedPowLoopA] at hsome
    have hr : r = (b, 0) := (Option.some_injective _ hsome).symm
    subst hr
    exact ⟨rfl, hb, rfl, fun h => absurd rfl h, le_refl 0⟩
  | succ fuel ih =>
    intro b e r he hb hsome
    simp only [checkedPowLoopA] at hsome
    simp only [powLoopA]
    by_cases hguard : e % 2 = 0 ∧ e ≠ 0
    · rw [if_pos hguard] at hsome
      rw [if_pos hguard]
      cases hm : checkedMulU w b b with
      | none => rw [hm] at hsome; cases hsome
      | some b2 =>
        rw [hm] at hsome
        obtain ⟨hb2eq, hb2lt⟩ := checkedMulU_some w b b b2 hm
        obtain ⟨IH1, IH2, IH3, IH4, IH5⟩ :=
          ih b2 (e / 2) r (by omega) (hb2eq ▸ hb2lt) hsome
        have hwm : wrapMul w b b = b2 := by
          unfold wrapMul
          rw [Nat.mod_eq_of_lt hb2lt, hb2eq]
        refine ⟨hwm ▸ IH1, IH2, ?_, ?_, by omega⟩
        · rw [IH3, hb2eq, ← pow_two, ← pow_mul]
          congr 1
          omega
        · intro _
          exact IH4 (by omega)
    · rw [if_neg hguard] at hsome
      rw [if_neg hguard]
      have hr : r = (b, e) := (Option.some_injective _ hsome).symm
      subst hr
      exact ⟨rfl, hb, rfl, fun hne => ⟨by omega, hne⟩, le_refl e⟩

theorem checkedPowLoopB_some (w : ℕ) :
    ∀ (fuel acc b e v : ℕ), e ≤ fuel → acc < 2 ^ w → b < 2 ^ w →
      checkedPowLoopB (checkedMulU w) fuel acc b e = some v →
      powLoopB (wrapMul w) fuel acc b e = v ∧ v < 2 ^ w ∧ v = acc * b ^ (e - e % 2) := by
  intro fuel
  induction fuel with
  | zero =>
    intro acc b e v he hacc hb hsome
    have he0 : e = 0 := by omega
    subst he0
    simp only [checkedPowLoopB] at hsome
    have hv : v = acc := (Option.some_injective _ hsome).symm
    subst hv
    exact ⟨rfl, hacc, by simp⟩
  | succ fuel ih =>
    intro acc b e v he hacc hb hsome
    simp only [checkedPowLoopB] at hsome
    simp only [powLoopB]
    by_cases hguard : 1 < e
    · rw [if_pos hguard] at hsome
      rw [if_pos hguard]
      split at hsome
      · exact absurd hsome (by simp)
      rename_i b2 hm
      obtain ⟨hb2eq, hb2lt⟩ := checkedMulU_some w b b b2 hm
      have hwm : wrapMul w b b = b2 := by
        unfold wrapMul
        rw [Nat.mod_eq_of_lt hb2lt, hb2eq]
      split at hsome
      · exact absurd hsome (by simp)
      rename_i acc2 hacc2m
      by_cases hodd : e / 2 % 2 = 1
      · rw [if_pos hodd] at hacc2m
        obtain ⟨hacc2eq, hacc2lt⟩ := checkedMulU_some w acc b2 acc2 hacc2m
        obtain ⟨IH1, IH2, IH3⟩ :=
          ih acc2 b2 (e / 2) v (by omega) (hacc2eq ▸ hacc2lt) (hb2eq ▸ hb2lt) hsome
        refine ⟨?_, IH2, ?_⟩
        · rw [hwm, if_pos hodd]
          have hwacc : wrapMul w acc b2 = acc2 := by
            unfold wrapMul
            rw [Nat.mod_eq_of_lt hacc2lt, hacc2eq]
          rw [hwacc]
          exact IH1
        · rw [IH3, hacc2eq, hb2eq]
          have h1 : acc * (b * b) * (b * b) ^ (e / 2 - e / 2 % 2) =
              acc * (b * b) ^ (e / 2 - e / 2 % 2 + 1) := by
            rw [pow_succ]
            ring
          rw [h1, ← pow_two, ← pow_mul]
          have hexp : 2 * (e / 2 - e / 2 % 2 + 1) = e - e % 2 := by omega
          rw [hexp]
      · rw [if_neg hodd] at hacc2m
        have haeq : acc2 = acc := (Option.some_injective _ hacc2m).symm
        subst haeq
        obtain ⟨IH1, IH2, IH3⟩ :=
          ih acc2 b2 (e / 2) v (by omega) hacc (hb2eq ▸ hb2lt) hsome
        refine ⟨?_, IH2, ?_⟩
        · rw [hwm, if_neg hodd]
          exact IH1
        · rw [IH3, hb2eq, ← pow_two, ← pow_mul]
          have hexp : 2 * (e / 2 - e / 2 % 2) = e - e % 2 := by omega
          rw [hexp]
    · rw [if_neg hguard] at hsome
      rw [if_neg hguard]
      have hv : v = acc := (Option.some_injective _ hsome).symm
      subst hv
      refine ⟨rfl, hacc, ?_⟩
      have : e - e % 2 = 0 := by omega
      rw [this, pow_zero, mul_one]

theorem checkedPowLoopA_total (w : ℕ) :
    ∀ (fuel b e : ℕ), e ≤ fuel → b < 2 ^ w → b ^ e < 2 ^ w →
      checkedPowLoopA (checkedMulU w) fuel b e ≠ none := by
  intro fuel
  induction fuel with
  | zero =>
    intro b e he hb hpow
    simp [checkedPowLoopA]
  | succ fuel ih =>
    intro b e he hb hpow
    simp only [checkedPowLoopA]
    by_cases hguard : e % 2 = 0 ∧ e ≠ 0
    · rw [if_pos hguard]
      have hbb : b * b < 2 ^ w := by
        rcases Nat.eq_zero_or_pos b with hb0 | hb0
        · have hp : (0 : ℕ) < 2 ^ w := by positivity
          rw [hb0]
          simp
        · calc b * b = b ^ 2 := (pow_two b).symm
          _ ≤ b ^ e := Nat.pow_le_pow_right hb0 (by omega)
          _ < 2 ^ w := hpow
      have hcm : checkedMulU w b b = some (b * b) := by
        unfold checkedMulU
        rw [if_pos hbb]
      split
      · rename_i heq
        rw [hcm] at heq
        cases heq
      · rename_i b2 heq
        rw [hcm] at heq
        have hb2 : b2 = b * b := (Option.some_injective _ heq).symm
        subst hb2
        apply ih (b * b) (e / 2) (by omega) hbb
        rw [← pow_two, ← pow_mul]
        have hexp : 2 * (e / 2) = e := by omega
        rw [hexp]
        exact hpow
    · rw [if_neg hguard]
      simp

theorem checkedPowLoopB_total (w : ℕ) :
    ∀ (fuel acc b e : ℕ), e ≤ fuel → (acc = 0 → b = 0) →
      acc * b ^ (e - e % 2) < 2 ^ w → acc < 2 ^ w → b < 2 ^ w →
      checkedPowLoopB (checkedMulU w) fuel acc b e ≠ none := by
  intro fuel
  induction fuel with
  | zero =>
    intro acc b e he hz hF hacc hb
    simp [checkedPowLoopB]
  | succ fuel ih =>
    intro acc b e he hz hF hacc hb
    simp only [checkedPowLoopB]
    by_cases hguard : 1 < e
    · rw [if_pos hguard]
      have hp : (0 : ℕ) < 2 ^ w := by positivity
      have hbb : b * b < 2 ^ w := by
        rcases Nat.eq_zero_or_pos b with hb0 | hb0
        · rw [hb0]
          simp
        · rcases Nat.eq_zero_or_pos acc with ha0 | ha0
          · exact absurd (hz ha0) (by omega)
          · calc b * b = b ^ 2 := (pow_two b).symm
            _ ≤ b ^ (e - e % 2) := Nat.pow_le_pow_right hb0 (by omega)
            _ ≤ acc * b ^ (e - e % 2) := Nat.le_mul_of_pos_left _ ha0
            _ < 2 ^ w := hF
      have hcm : checkedMulU w b b = some (b * b) := by
        unfold checkedMulU
        rw [if_pos hbb]
      split
      · rename_i heq
        rw [hcm] at heq
        cases heq
      rename_i b2 heq
      rw [hcm] at heq
      have hb2 : b2 = b * b := (Option.some_injective _ heq).symm
      subst hb2
      have haccb : acc * (b * b) < 2 ^ w := by
        rcases Nat.eq_zero_or_pos acc with ha0 | ha0
        · rw [ha0]
          simp
        · rcases Nat.eq_zero_or_pos b with hb0 | hb0
          · rw [hb0]
            simp
          · calc acc * (b * b) = acc * b ^ 2 := by rw [pow_two]
            _ ≤ acc * b ^ (e - e % 2) :=
              Nat.mul_le_mul_left _ (Nat.pow_le_pow_right hb0 (by omega))
            _ < 2 ^ w := hF
      split
      · rename_i heq2
        by_cases hodd : e / 2 % 2 = 1
        · rw [if_pos hodd] at heq2
          have hcm2 : checkedMulU w acc (b * b) = some (acc * (b * b)) := by
            unfold checkedMulU
            rw [if_pos haccb]
          rw [hcm2] at heq2
          cases heq2
        · rw [if_neg hodd] at heq2
          cases heq2
      · rename_i acc2 heq2
        by_cases hodd : e / 2 % 2 = 1
        · rw [if_pos hodd] at heq2
          obtain ⟨hacc2eq, -⟩ := checkedMulU_some w acc (b * b) acc2 heq2
          subst hacc2eq
          apply ih (acc * (b * b)) (b * b) (e / 2) (by omega) ?_ ?_ haccb hbb
          · intro h0
            rcases Nat.mul_eq_zero.mp h0 with h | h
            · rw [hz h]
            · exact h
          · have hval : acc * (b * b) * (b * b) ^ (e / 2 - e / 2 % 2) =
                acc * b ^ (e - e % 2) := by
              rw [mul_assoc, ← pow_succ', ← pow_two, ← pow_mul]
              have hexp : 2 * (e / 2 - e / 2 % 2 + 1) = e - e % 2 := by omega
              rw [hexp]
            rw [hval]
            exact hF
        · rw [if_neg hodd] at heq2
          have hacc2 : acc2 = acc := (Option.some_injective _ heq2).symm
          subst hacc2
          apply ih acc2 (b * b) (e / 2) (by omega) ?_ ?_ hacc hbb
          · intro h0
            rw [hz h0]
          · have hval : acc2 * (b * b) ^ (e / 2 - e / 2 % 2) =
                acc2 * b ^ (e - e % 2) := by
              rw [← pow_two, ← pow_mul]
              have hexp : 2 * (e / 2 - e / 2 % 2) = e - e % 2 := by omega
              rw [hexp]
            rw [hval]
            exact hF
    · rw [if_neg hguard]
      simp

theorem toSigned_emod (w : ℕ) (x : ℤ) (hw : 1 ≤ w)
    (h1 : -2 ^ (w - 1) ≤ x) (h2 : x ≤ 2 ^ (w - 1) - 1) :
    toSigned w (x % 2 ^ w) = x := by
  have h2w : (2 : ℤ) ^ w = 2 * 2 ^ (w - 1) := by
    rw [← pow_succ']
    congr 1
    omega
  have hpos : (0 : ℤ) < 2 ^ (w - 1) := by positivity
  rcases le_or_lt 0 x with hx | hx
  · have hm : x % 2 ^ w = x := Int.emod_eq_of_lt hx (by omega)
    rw [hm]
    unfold toSigned
    rw [if_pos (by omega)]
  · have hm : x % 2 ^ w = x + 2 ^ w := by
      have hstep : (x + 2 ^ w * 1) % 2 ^ w = x % 2 ^ w :=
        Int.add_mul_emod_self_left x (2 ^ w) 1
      rw [mul_one] at hstep
      rw [← hstep]
      exact Int.emod_eq_of_lt (by omega) (by omega)
    rw [hm]
    unfold toSigned
    rw [if_neg (by omega)]
    ring

theorem checkedMulS_some (w : ℕ) (a b c : ℤ) (h : checkedMulS w a b = some c) :
    c = a * b ∧ -2 ^ (w - 1) ≤ a * b ∧ a * b ≤ 2 ^ (w - 1) - 1 := by
  unfold checkedMulS at h
  split_ifs at h with hc
  exact ⟨(Option.some_injective _ h).symm, hc.1, hc.2⟩

theorem checkedPowLoopA_someS (w : ℕ) (hw : 1 ≤ w) :
    ∀ (fuel : ℕ) (b : ℤ) (e : ℕ) (r : ℤ × ℕ), e ≤ fuel →
      -2 ^ (w - 1) ≤ b → b ≤ 2 ^ (w - 1) - 1 →
      checkedPowLoopA (checkedMulS w) fuel b e = some r →
      powLoopA (wrapMulS w) fuel b e = r ∧
        (-2 ^ (w - 1) ≤ r.1 ∧ r.1 ≤ 2 ^ (w - 1) - 1) ∧ r.1 ^ r.2 = b ^ e ∧
        (e ≠ 0 → r.2 % 2 = 1 ∧ r.2 ≠ 0) ∧ r.2 ≤ e := by
  intro fuel
  induction fuel with
  | zero =>
    intro b e r he hb1 hb2 hsome
    have he0 : e = 0 := by omega
    subst he0
    simp only [checkedPowLoopA] at hsome
    have hr : r = (b, 0) := (Option.some_injective _ hsome).symm
    subst hr
    exact ⟨rfl, ⟨hb1, hb2⟩, rfl, fun h => absurd rfl h, le_refl 0⟩
  | succ fuel ih =>
    intro b e r he hb1 hb2 hsome
    simp only [checkedPowLoopA] at hsome
    simp only [powLoopA]
    by_cases hguard : e % 2 = 0 ∧ e ≠ 0
    · rw [if_pos hguard] at hsome
      rw [if_pos hguard]
      cases hm : checkedMulS w b b with
      | none => rw [hm] at hsome; cases hsome
      | some b2 =>
        rw [hm] at hsome
        obtain ⟨hb2eq, hr1, hr2⟩ := checkedMulS_some w b b b2 hm
        obtain ⟨IH1, IH2, IH3, IH4, IH5⟩ :=
          ih b2 (e / 2) r (by omega) (by omega) (by omega) hsome
        have hwm : wrapMulS w b b = b2 := by
          unfold wrapMulS
          rw [toSigned_emod w (b * b) hw hr1 hr2]
          exact hb2eq.symm
        refine ⟨hwm ▸ IH1, IH2, ?_, ?_, by omega⟩
        · rw [IH3, hb2eq, ← pow_two, ← pow_mul]
          congr 1
          omega
        · intro _
          exact IH4 (by omega)
    · rw [if_neg hguard] at hsome
      rw [if_neg hguard]
      have hr : r = (b, e) := (Option.some_injective _ hsome).symm
      subst hr
      exact ⟨rfl, ⟨hb1, hb2⟩, rfl, fun hne => ⟨by omega, hne⟩, le_refl e⟩

theorem checkedPowLoopB_someS (w : ℕ) (hw : 1 ≤ w) :
    ∀ (fuel : ℕ) (acc b : ℤ) (e : ℕ) (v : ℤ), e ≤ fuel →
      -2 ^ (w - 1) ≤ acc → acc ≤ 2 ^ (w - 1) - 1 →
      -2 ^ (w - 1) ≤ b → b ≤ 2 ^ (w - 1) - 1 →
      checkedPowLoopB (checkedMulS w) fuel acc b e = some v →
      powLoopB (wrapMulS w) fuel acc b e = v ∧
        (-2 ^ (w - 1) ≤ v ∧ v ≤ 2 ^ (w - 1) - 1) ∧ v = acc * b ^ (e - e % 2) := by
  intro fuel
  induction fuel with
  | zero =>
    intro acc b e v he ha1 ha2 hb1 hb2 hsome
    have he0 : e = 0 := by omega
    subst he0
    simp only [checkedPowLoopB] at hsome
    have hv : v = acc := (Option.some_injective _ hsome).symm
    subst hv
    exact ⟨rfl, ⟨ha1, ha2⟩, by simp⟩
  | succ fuel ih =>
    intro acc b e v he ha1 ha2 hb1 hb2 hsome
    simp only [checkedPowLoopB] at hsome
    simp only [powLoopB]
    by_cases hguard : 1 < e
    · rw [if_pos hguard] at hsome
      rw [if_pos hguard]
      split at hsome
      · exact absurd hsome (by simp)
      rename_i b2 hm
      obtain ⟨hb2eq, hr1, hr2⟩ := checkedMulS_some w b b b2 hm
      have hwm : wrapMulS w b b = b2 := by
        unfold wrapMulS
        rw [toSigned_emod w (b * b) hw hr1 hr2]
        exact hb2eq.symm
      split at hsome
      · exact absurd hsome (by simp)
      rename_i acc2 hacc2m
      by_cases hodd : e / 2 % 2 = 1
      · rw [if_pos hodd] at hacc2m
        obtain ⟨hacc2eq, hs1, hs2⟩ := checkedMulS_some w acc b2 acc2 hacc2m
        obtain ⟨IH1, IH2, IH3⟩ :=
          ih acc2 b2 (e / 2) v (by omega) (by omega) (by omega) (by omega) (by omega)
            hsome
        refine ⟨?_, IH2, ?_⟩
        · rw [hwm, if_pos hodd]
          have hwacc : wrapMulS w acc b2 = acc2 := by
            unfold wrapMulS
            rw [toSigned_emod w (acc * b2) hw hs1 hs2]
            exact hacc2eq.symm
          rw [hwacc]
          exact IH1
        · rw [IH3, hacc2eq, hb2eq]
          have h1 : acc * (b * b) * (b * b) ^ (e / 2 - e / 2 % 2) =
              acc * (b * b) ^ (e / 2 - e / 2 % 2 + 1) := by
            rw [pow_succ]
            ring
          rw [h1, ← pow_two, ← pow_mul]
          have hexp : 2 * (e / 2 - e / 2 % 2 + 1) = e - e % 2 := by omega
          rw [hexp]
      · rw [if_neg hodd] at hacc2m
        have haeq : acc2 = acc := (Option.some_injective _ hacc2m).symm
        subst haeq
        obtain ⟨IH1, IH2, IH3⟩ :=
          ih acc2 b2 (e / 2) v (by omega) ha1 ha2 (by omega) (by omega) hsome
        refine ⟨?_, IH2, ?_⟩
        · rw [hwm, if_neg hodd]
          exact IH1
        · rw [IH3, hb2eq, ← pow_two, ← pow_mul]
          have hexp : 2 * (e / 2 - e / 2 % 2) = e - e % 2 := by omega
          rw [hexp]
    · rw [if_neg hguard] at hsome
      rw [if_neg hguard]
      have hv : v = acc := (Option.some_injective _ hsome).symm
      subst hv
      refine ⟨rfl, ⟨ha1, ha2⟩, ?_⟩
      have h0 : e - e % 2 = 0 := by omega
      rw [h0, pow_zero, mul_one]

theorem checkedPowLoopA_totalS (w : ℕ) :
    ∀ (fuel : ℕ) (b : ℤ) (e : ℕ), e ≤ fuel →
      -2 ^ (w - 1) ≤ b ^ e → b ^ e ≤ 2 ^ (w - 1) - 1 →
      checkedPowLoopA (checkedMulS w) fuel b e ≠ none := by
  intro fuel
  induction fuel with
  | zero =>
    intro b e he hp1 hp2
    simp [checkedPowLoopA]
  | succ fuel ih =>
    intro b e he hp1 hp2
    simp only [checkedPowLoopA]
    by_cases hguard : e % 2 = 0 ∧ e ≠ 0
    · rw [if_pos hguard]
      have hP : (0 : ℤ) < 2 ^ (w - 1) := by positivity
      have hbbnn : (0 : ℤ) ≤ b * b := mul_self_nonneg b
      have hbb_le : b * b ≤ b ^ e := by
        rcases eq_or_ne b 0 with rfl | hb0
        · rw [zero_pow hguard.2]
          simp
        · have h1 : (1 : ℤ) ≤ |b| := by
            rcases hb0.lt_or_lt with h | h
            · rw [abs_of_neg h]; omega
            · rw [abs_of_pos h]; omega
          calc b * b = b ^ 2 := (pow_two b).symm
            _ = |b| ^ 2 := (sq_abs b).symm
            _ ≤ |b| ^ e := pow_le_pow_right₀ h1 (by omega)
            _ = b ^ e := Even.pow_abs (Nat.even_iff.mpr hguard.1) b
      have hcm : checkedMulS w b b = some (b * b) := by
        unfold checkedMulS
        rw [if_pos ⟨by omega, by omega⟩]
      split
      · rename_i heq
        rw [hcm] at heq
        cases heq
      · rename_i b2 heq
        rw [hcm] at heq
        have hb2 : b2 = b * b := (Option.some_injective _ heq).symm
        subst hb2
        have hpe : (b * b) ^ (e / 2) = b ^ e := by
          rw [← pow_two, ← pow_mul]
          congr 1
          omega
        have hq1 : -2 ^ (w - 1) ≤ (b * b) ^ (e / 2) := by
          rw [hpe]
          exact hp1
        have hq2 : (b * b) ^ (e / 2) ≤ 2 ^ (w - 1) - 1 := by
          rw [hpe]
          exact hp2
        exact ih (b * b) (e / 2) (by omega) hq1 hq2
    · rw [if_neg hguard]
      simp

theorem checkedPowLoopB_totalS (w : ℕ) (hw : 2 ≤ w) :
    ∀ (fuel : ℕ) (acc b : ℤ) (e : ℕ), e ≤ fuel →
      (acc = 0 → b = 0) →
      (acc.natAbs = 1 → b.natAbs ≤ 1) →
      -2 ^ (w - 1) ≤ acc → acc ≤ 2 ^ (w - 1) - 1 →
      -2 ^ (w - 1) ≤ acc * b ^ (e - e % 2) →
      acc * b ^ (e - e % 2) ≤ 2 ^ (w - 1) - 1 →
      checkedPowLoopB (checkedMulS w) fuel acc b e ≠ none := by
  intro fuel
  induction fuel with
  | zero =>
    intro acc b e he hz hJ ha1 ha2 hF1 hF2
    simp [checkedPowLoopB]
  | succ fuel ih =>
    intro acc b e he hz hJ ha1 ha2 hF1 hF2
    simp only [checkedPowLoopB]
    by_cases hguard : 1 < e
    · rw [if_pos hguard]
      have hP : (2 : ℤ) ≤ 2 ^ (w - 1) := by
        calc (2 : ℤ) = 2 ^ 1 := (pow_one 2).symm
        _ ≤ 2 ^ (w - 1) := pow_le_pow_right₀ (by norm_num) (by omega)
      have hbbnn : (0 : ℤ) ≤ b * b := mul_self_nonneg b
      have hsnn : (0 : ℤ) ≤ b ^ (e - e % 2) :=
        Even.pow_nonneg (Nat.even_iff.mpr (by omega)) b
      have hbbs : b * b ≤ b ^ (e - e % 2) := by
        rcases eq_or_ne b 0 with rfl | hb0
        · rw [zero_pow (by omega : e - e % 2 ≠ 0)]
          simp
        · have h1 : (1 : ℤ) ≤ |b| := by
            rcases hb0.lt_or_lt with h | h
            · rw [abs_of_neg h]; omega
            · rw [abs_of_pos h]; omega
          calc b * b = b ^ 2 := (pow_two b).symm
            _ = |b| ^ 2 := (sq_abs b).symm
            _ ≤ |b| ^ (e - e % 2) := pow_le_pow_right₀ h1 (by omega)
            _ = b ^ (e - e % 2) := Even.pow_abs (Nat.even_iff.mpr (by omega)) b
      have hbb_ub : b * b ≤ 2 ^ (w - 1) - 1 := by
        rcases lt_trichotomy acc 0 with hneg | h0 | hpos
        · by_cases h1 : acc.natAbs = 1
          · have hb1 : b.natAbs ≤ 1 := hJ h1
            have h3 : b = -1 ∨ b = 0 ∨ b = 1 := by omega
            rcases h3 with rfl | rfl | rfl <;> omega
          · have step1 : 2 * b ^ (e - e % 2) ≤ -acc * b ^ (e - e % 2) :=
              mul_le_mul_of_nonneg_right (by omega) hsnn
            have step2 : -acc * b ^ (e - e % 2) = -(acc * b ^ (e - e % 2)) := by
              ring
            omega
        · have hb0 : b = 0 := hz h0
          subst hb0
          omega
        · have step1 : b ^ (e - e % 2) ≤ acc * b ^ (e - e % 2) :=
            le_mul_of_one_le_left hsnn (by omega)
          omega
      have hcm : checkedMulS w b b = some (b * b) := by
        unfold checkedMulS
        rw [if_pos ⟨by omega, hbb_ub⟩]
      have haccb_bounds : -2 ^ (w - 1) ≤ acc * (b * b) ∧
          acc * (b * b) ≤ 2 ^ (w - 1) - 1 := by
        rcases le_or_lt 0 acc with hpos | hneg
        · have h1 : acc * (b * b) ≤ acc * b ^ (e - e % 2) :=
            mul_le_mul_of_nonneg_left hbbs hpos
          have h2 : (0 : ℤ) ≤ acc * (b * b) := mul_nonneg hpos hbbnn
          omega
        · have h1 : acc * b ^ (e - e % 2) ≤ acc * (b * b) :=
            mul_le_mul_of_nonpos_left hbbs (le_of_lt hneg)
          have h2 : acc * (b * b) ≤ 0 :=
            mul_nonpos_iff.mpr (Or.inr ⟨le_of_lt hneg, hbbnn⟩)
          omega
      split
      · rename_i heq
        rw [hcm] at heq
        cases heq
      rename_i b2 heq
      rw [hcm] at heq
      have hb2 : b2 = b * b := (Option.some_injective _ heq).symm
      subst hb2
      split
      · rename_i heq2
        by_cases hodd : e / 2 % 2 = 1
        · rw [if_pos hodd] at heq2
          have hcm2 : checkedMulS w acc (b * b) = some (acc * (b * b)) := by
            unfold checkedMulS
            rw [if_pos ⟨haccb_bounds.1, haccb_bounds.2⟩]
          rw [hcm2] at heq2
          cases heq2
        · rw [if_neg hodd] at heq2
          cases heq2
      · rename_i acc2 heq2
        by_cases hodd : e / 2 % 2 = 1
        · rw [if_pos hodd] at heq2
          obtain ⟨hacc2eq, hs1, hs2⟩ := checkedMulS_some w acc (b * b) acc2 heq2
          have hval : acc2 * (b * b) ^ (e / 2 - e / 2 % 2) =
              acc * b ^ (e - e % 2) := by
            rw [hacc2eq, mul_assoc, ← pow_succ', ← pow_two, ← pow_mul]
            have hexp : 2 * (e / 2 - e / 2 % 2 + 1) = e - e % 2 := by omega
            rw [hexp]
          apply ih acc2 (b * b) (e / 2) (by omega)
          · intro h0
            rw [hacc2eq] at h0
            rcases mul_eq_zero.mp h0 with h | h
            · rw [hz h]
              simp
            · exact h
          · intro h1
            rw [hacc2eq, Int.natAbs_mul] at h1
            exact Nat.le_of_dvd one_pos (dvd_of_mul_left_eq acc.natAbs h1)
          · omega
          · omega
          · rw [hval]
            exact hF1
          · rw [hval]
            exact hF2
        · rw [if_neg hodd] at heq2
          have haeq : acc2 = acc := (Option.some_injective _ heq2).symm
          subst haeq
          have hval : acc2 * (b * b) ^ (e / 2 - e / 2 % 2) =
              acc2 * b ^ (e - e % 2) := by
            rw [← pow_two, ← pow_mul]
            have hexp : 2 * (e / 2 - e / 2 % 2) = e - e % 2 := by omega
            rw [hexp]
          apply ih acc2 (b * b) (e / 2) (by omega)
          · intro h0
            rw [hz h0]
            simp
          · intro h1
            have hb1 := hJ h1
            rw [Int.natAbs_mul]
            calc b.natAbs * b.natAbs ≤ 1 * 1 := Nat.mul_le_mul hb1 hb1
            _ = 1 := by norm_num
          · exact ha1
          · exact ha2
          · rw [hval]
            exact hF1
          · rw [hval]
            exact hF2
    · rw [if_neg hguard]
      simp

theorem checked_pow_some_spec (w b e : ℕ) (hw : 1 ≤ w) (hb : b < 2 ^ w) :
    ∀ v, checkedPowU w b e = some v →
      v = powU w b e ∧ v = b ^ e ∧ b ^ e < 2 ^ w := by
  intro v hv
  unfold checkedPowU checkedPowG at hv
  unfold powU powG
  by_cases he : e = 0
  · rw [if_pos he] at hv ⊢
    have hv1 : v = 1 := (Option.some_injective _ hv).symm
    subst hv1
    have h2 : 1 < 2 ^ w := Nat.one_lt_two_pow_iff.mpr (by omega)
    exact ⟨rfl, by simp [he], by simp [he]; omega⟩
  · rw [if_neg he] at hv ⊢
    split at hv
    · exact absurd hv (by simp)
    rename_i b1 e1 hA
    obtain ⟨hA1, hA2, hA3, hA4, hA5⟩ :=
      checkedPowLoopA_some w e b e (b1, e1) (le_refl e) hb hA
    dsimp only at hA2 hA3 hA4 hA5
    rw [hA1]
    obtain ⟨ho, hne⟩ := hA4 he
    split at hv
    · rename_i h1
      have hv1 : v = b1 := (Option.some_injective _ hv).symm
      refine ⟨?_, ?_, ?_⟩
      · show v = if e1 = 1 then b1 else powLoopB (wrapMul w) e1 b1 b1 e1
        rw [if_pos h1]
        exact hv1
      · rw [hv1, ← hA3, h1, pow_one]
      · rw [← hA3, h1, pow_one]
        exact hA2
    · rename_i h1
      obtain ⟨hB1, hB2, hB3⟩ :=
        checkedPowLoopB_some w e1 b1 b1 e1 v (le_refl _) hA2 hA2 hv
      have hval : v = b ^ e := by
        rw [hB3, ho, ← hA3]
        rw [← pow_succ']
        congr 1
        omega
      refine ⟨?_, hval, hval ▸ hB2⟩
      show v = if e1 = 1 then b1 else powLoopB (wrapMul w) e1 b1 b1 e1
      rw [if_neg h1]
      exact hB1.symm

theorem checked_pow_some_specS (w : ℕ) (b : ℤ) (e : ℕ) (hw : 2 ≤ w)
    (hb1 : -2 ^ (w - 1) ≤ b) (hb2 : b ≤ 2 ^ (w - 1) - 1) :
    ∀ v, checkedPowS w b e = some v →
      v = powS w b e ∧ v = b ^ e ∧
      -2 ^ (w - 1) ≤ b ^ e ∧ b ^ e ≤ 2 ^ (w - 1) - 1 := by
  intro v hv
  unfold checkedPowS checkedPowG at hv
  unfold powS powG
  by_cases he : e = 0
  · rw [if_pos he] at hv ⊢
    have hv1 : v = 1 := (Option.some_injective _ hv).symm
    subst hv1
    have h2 : (2 : ℤ) ≤ 2 ^ (w - 1) := by
      calc (2 : ℤ) = 2 ^ 1 := (pow_one 2).symm
      _ ≤ 2 ^ (w - 1) := pow_le_pow_right₀ (by norm_num) (by omega)
    refine ⟨rfl, by simp [he], ?_, ?_⟩
    · rw [he, pow_zero]
      omega
    · rw [he, pow_zero]
      omega
  · rw [if_neg he] at hv ⊢
    split at hv
    · exact absurd hv (by simp)
    rename_i b1 e1 hA
    obtain ⟨hA1, ⟨hAr1, hAr2⟩, hA3, hA4, hA5⟩ :=
      checkedPowLoopA_someS w (by omega) e b e (b1, e1) (le_refl e) hb1 hb2 hA
    dsimp only at hAr1 hAr2 hA3 hA4 hA5
    rw [hA1]
    obtain ⟨ho, hne⟩ := hA4 he
    split at hv
    · rename_i h1
      have hv1 : v = b1 := (Option.some_injective _ hv).symm
      have hbe : b1 = b ^ e := by
        rw [← hA3, h1, pow_one]
      refine ⟨?_, ?_, ?_, ?_⟩
      · show v = if e1 = 1 then b1 else powLoopB (wrapMulS w) e1 b1 b1 e1
        rw [if_pos h1]
        exact hv1
      · rw [hv1, hbe]
      · rw [← hbe]
        exact hAr1
      · rw [← hbe]
        exact hAr2
    · rename_i h1
      obtain ⟨hB1, ⟨hBr1, hBr2⟩, hB3⟩ :=
        checkedPowLoopB_someS w (by omega) e1 b1 b1 e1 v (le_refl e1) hAr1 hAr2
          hAr1 hAr2 hv
      have hval : v = b ^ e := by
        rw [hB3, ho, ← hA3]
        rw [← pow_succ']
        congr 1
        omega
      refine ⟨?_, hval, hval ▸ hBr1, hval ▸ hBr2⟩
      show v = if e1 = 1 then b1 else powLoopB (wrapMulS w) e1 b1 b1 e1
      rw [if_neg h1]
      exact hB1.symm

theorem checkedPowS_total (w : ℕ) (b : ℤ) (e : ℕ) (hw : 2 ≤ w)
    (hb1 : -2 ^ (w - 1) ≤ b) (hb2 : b ≤ 2 ^ (w - 1) - 1)
    (hp1 : -2 ^ (w - 1) ≤ b ^ e) (hp2 : b ^ e ≤ 2 ^ (w - 1) - 1) :
    checkedPowS w b e ≠ none := by
  unfold checkedPowS checkedPowG
  by_cases he : e = 0
  · rw [if_pos he]
    simp
  · rw [if_neg he]
    split
    · rename_i heq
      exact absurd heq (checkedPowLoopA_totalS w e b e (le_refl e) hp1 hp2)
    · rename_i b1 e1 heq
      obtain ⟨-, ⟨hA1, hA2⟩, hA3, hA4, -⟩ :=
        checkedPowLoopA_someS w (by omega) e b e (b1, e1) (le_refl e) hb1 hb2 heq
      dsimp only at hA1 hA2 hA3 hA4
      obtain ⟨ho, hne⟩ := hA4 he
      by_cases h1 : e1 = 1
      · rw [if_pos h1]
        simp
      · rw [if_neg h1]
        have hval : b1 * b1 ^ (e1 - e1 % 2) = b1 ^ e1 := by
          rw [ho, ← pow_succ']
          congr 1
          omega
        have hq1 : -2 ^ (w - 1) ≤ b1 * b1 ^ (e1 - e1 % 2) := by
          rw [hval, hA3]
          exact hp1
        have hq2 : b1 * b1 ^ (e1 - e1 % 2) ≤ 2 ^ (w - 1) - 1 := by
          rw [hval, hA3]
          exact hp2
        exact checkedPowLoopB_totalS w hw e1 b1 b1 e1 (le_refl e1) (fun h => h)
          (fun h => h.le) hA1 hA2 hq1 hq2

theorem checked_pow_spec_s (w : ℕ) (b : ℤ) (e : ℕ) (hw : 2 ≤ w)
    (hb1 : -2 ^ (w - 1) ≤ b) (hb2 : b ≤ 2 ^ (w - 1) - 1) :
    (∀ v, checkedPowS w b e = some v →
      v = powS w b e ∧ v = b ^ e ∧
      -2 ^ (w - 1) ≤ b ^ e ∧ b ^ e ≤ 2 ^ (w - 1) - 1) ∧
    (checkedPowS w b e = none ↔
      ¬(-2 ^ (w - 1) ≤ b ^ e ∧ b ^ e ≤ 2 ^ (w - 1) - 1)) := by
  have hsome := checked_pow_some_specS w b e hw hb1 hb2
  refine ⟨hsome, ?_, ?_⟩
  · intro hnone hc
    exact absurd hnone (checkedPowS_total w b e hw hb1 hb2 hc.1 hc.2)
  · intro hge
    cases hv : checkedPowS w b e with
    | none => rfl
    | some v =>
      obtain ⟨-, -, hr1, hr2⟩ := hsome v hv
      exact absurd ⟨hr1, hr2⟩ hge

theorem checked_pow_spec_u (w b e : ℕ) (hw : 1 ≤ w) (hb : b < 2 ^ w) :
    (∀ v, checkedPowU w b e = some v →
      v = powU w b e ∧ v = b ^ e ∧ b ^ e < 2 ^ w) ∧
    (checkedPowU w b e = none ↔ 2 ^ w ≤ b ^ e) := by
  refine ⟨checked_pow_some_spec w b e hw hb, ?_, ?_⟩
  · intro hnone
    by_contra hlt
    push_neg at hlt
    revert hnone
    unfold checkedPowU checkedPowG
    by_cases he : e = 0
    · rw [if_pos he]
      simp
    · rw [if_neg he]
      split
      · rename_i heq
        exact absurd heq (checkedPowLoopA_total w e b e (le_refl e) hb hlt)
      · rename_i b1 e1 heq
        obtain ⟨-, hA2, hA3, hA4, -⟩ :=
          checkedPowLoopA_some w e b e (b1, e1) (le_refl e) hb heq
        dsimp only at hA2 hA3 hA4
        obtain ⟨ho, hne⟩ := hA4 he
        by_cases h1 : e1 = 1
        · rw [if_pos h1]
          simp
        · rw [if_neg h1]
          apply checkedPowLoopB_total w e1 b1 b1 e1 (le_refl e1) (fun h => h) ?_ hA2 hA2
          have hval : b1 * b1 ^ (e1 - e1 % 2) = b1 ^ e1 := by
            rw [ho, ← pow_succ']
            congr 1
            omega
          rw [hval, hA3]
          exact hlt
  · intro hge
    cases hv : checkedPowU w b e with
    | none => rfl
    | some v =>
      obtain ⟨-, -, hlt⟩ := checked_pow_some_spec w b e hw hb v hv
      omega

/-- C8: for every integer kind, unsigned and signed, `checked_pow` runs the
same square-and-multiply algorithm as `pow` with every squaring and
accumulation multiplication checked: whenever it returns `Some v`, `v`
equals `pow(base, exp)` and is the exact mathematical power `base ^ exp`
(which therefore fits in the kind) — never a partial or wrapped result; and
it returns `None` exactly when the exact power overflows the kind (for a
signed kind, falls outside `[-2^(w-1), 2^(w-1)-1]`): the first failing
multiplication short-circuits to `None`, and a multiplication fails only on
a genuinely unrepresentable power. -/
theorem checked_pow_agrees (w e : ℕ) (hw : 1 ≤ w) :
    (∀ b : ℕ, b < 2 ^ w →
      (∀ v, checkedPowU w b e = some v →
        v = powU w b e ∧ v = b ^ e ∧ b ^ e < 2 ^ w) ∧
      (checkedPowU w b e = none ↔ 2 ^ w ≤ b ^ e)) ∧
    (∀ b : ℤ, 2 ≤ w → -2 ^ (w - 1) ≤ b → b ≤ 2 ^ (w - 1) - 1 →
      (∀ v, checkedPowS w b e = some v →
        v = powS w b e ∧ v = b ^ e ∧
        -2 ^ (w - 1) ≤ b ^ e ∧ b ^ e ≤ 2 ^ (w - 1) - 1) ∧
      (checkedPowS w b e = none ↔
        ¬(-2 ^ (w - 1) ≤ b ^ e ∧ b ^ e ≤ 2 ^ (w - 1) - 1))) :=
  ⟨fun b hb => checked_pow_spec_u w b e hw hb,
   fun b hw2 hb1 hb2 => checked_pow_spec_s w b e hw2 hb1 hb2⟩

theorem checked_pow_agrees_witness :
    ((1 : ℕ) ≤ 32 ∧ (3 : ℕ) < 2 ^ 32 ∧
      ((243 : ℕ) = powU 32 3 5 ∧ (243 : ℕ) = 3 ^ 5 ∧ (3 : ℕ) ^ 5 < 2 ^ 32)) ∧
    ((2 : ℕ) ≤ 8 ∧ -(2 : ℤ) ^ (8 - 1) ≤ -3 ∧ (-3 : ℤ) ≤ 2 ^ (8 - 1) - 1 ∧
      ((9 : ℤ) = powS 8 (-3) 2 ∧ (9 : ℤ) = (-3) ^ 2 ∧
        -(2 : ℤ) ^ (8 - 1) ≤ (-3 : ℤ) ^ 2 ∧ ((-3) : ℤ) ^ 2 ≤ 2 ^ (8 - 1) - 1)) :=
  ⟨⟨by norm_num, by norm_num,
    ((checked_pow_agrees 32 5 (by norm_num)).1 3 (by norm_num)).1 243 (by decide)⟩,
   ⟨by norm_num, by norm_num, by norm_num,
    ((checked_pow_agrees 8 2 (by norm_num)).2 (-3) (by norm_num) (by norm_num)
      (by norm_num)).1 9 (by decide)⟩⟩

/-- C9: a zero exponent yields the multiplicative identity for every base
of every kind — `pow(b, 0) = 1` and `checked_pow(b, 0) = Some 1`,
including `0^0 = 1`; concretely `pow(2, 10) = 1024` and
`checked_pow(7_i8, 8) = None`. -/
theorem pow_zero_exponent_and_values :
    (∀ (α : Type) (one : α) (mul : α → α → α) (b : α), powG one mul b 0 = one) ∧
    (∀ (α : Type) (one : α) (mul : α → α → Option α) (b : α),
      checkedPowG one mul b 0 = some one) ∧
    powU 32 2 10 = 1024 ∧
    checkedPowS 8 7 8 = none ∧
    checkedPowU 32 0 0 = some 1 := by
  refine ⟨fun α one mul b => rfl, fun α one mul b => rfl, by decide, by decide, rfl⟩

end NumTraits
